import Mathlib

/-!
Chained hash table `itis::HashTable` (src/src/hash_table.cpp)

A shallow embedding of the hash table of `hash_table.cpp`.

* A bucket (`std::list<std::pair<int, std::string>>`) is a list of pairs, the
  bucket array (`std::vector<Bucket>`) a list of buckets.
* `int` keys and counters are unbounded integers / naturals: the development
  covers runs in which no `int` overflows.
* A `double` is the exact rational it stands for. Comparisons of doubles are
  exact; the quotient of the growth test
  `static_cast<double>(num_keys_) / buckets_.size() >= load_factor_` is rounded
  to the nearest binary64 number, as IEEE division does (`roundDouble`,
  `loadRatio`). Infinities, NaN and subnormal numbers are left out: quotients of
  positive counters are in the normal range.
* Indexing a vector out of range is undefined in C++; every operation that
  indexes `buckets_` returns `none` in that case, so `some _` means that all
  accesses were in bounds.
* `utils::hash` lives outside `hash_table.cpp`; the operations take the hash
  function as a parameter `hash key size`.
-/

namespace utils

/-- Modelled from the spec: `utils::hash(key, size)` is declared outside
`hash_table.cpp`. The spec fixes that it is deterministic and maps
`(key, capacity)` to an index in `[0, capacity)`, depending on the capacity. The
model reduces the key's unsigned 64-bit code (what `std::hash<int>` yields for
an `int` converted to `size_t`) modulo the size. -/
def hash (key : Int) (size : Nat) : Nat :=
  (key % 2 ^ 64).toNat % size

end utils

namespace itis

/-- One chain: `std::list<std::pair<int, std::string>>`. -/
abbrev Bucket := List (Int × String)

/-- Data members of `HashTable`: `buckets_`, `num_keys_`, `load_factor_`. -/
structure HashTable where
  buckets_ : List Bucket
  num_keys_ : Nat
  load_factor_ : ℚ
  deriving DecidableEq

/-- Modelled from the spec: `kGrowthCoefficient` is a constant of the header
`hash_table.hpp`, which is not among the sources; the spec gives its value
as 2. -/
def kGrowthCoefficient : Nat := 2

/-- Rounding of a non-negative real to the nearest binary64 number, ties to the
even significand, as conversions to `double` and IEEE division do it: in the
binade `[2^e, 2^(e+1))` the doubles are the multiples of `2^(e-52)`. -/
def roundDouble (q : ℚ) : ℚ :=
  if q ≤ 0 then 0
  else
    let ulp : ℚ := 2 ^ (Int.log 2 q - 52)
    let scaled : ℚ := q / ulp
    let low : Int := ⌊scaled⌋
    let significand : Int :=
      if scaled - low < 1 / 2 then low
      else if 1 / 2 < scaled - low then low + 1
      else if low % 2 = 0 then low else low + 1
    significand * ulp

/-- The quotient `static_cast<double>(num_keys_) / buckets_.size()` of the growth
test of `Put`: both operands converted to `double`, then divided in `double`.
`Put` reaches the test with both operands positive. -/
def loadRatio (num_keys size : Nat) : ℚ :=
  roundDouble (roundDouble num_keys / roundDouble size)

/-- A hash function keeps its result inside `[0, size)` for every positive size. -/
def HashInRange (hash : Int → Nat → Nat) : Prop :=
  ∀ (key : Int) (size : Nat), 0 < size → hash key size < size

/-- A hash function reduces a size-independent code of the key modulo the size. -/
def HashModular (hash : Int → Nat → Nat) : Prop :=
  ∃ code : Int → Nat, ∀ (key : Int) (size : Nat), hash key size = code key % size

namespace HashTable

/-- Method `HashTable::size`. -/
def size (t : HashTable) : Nat := t.num_keys_

/-- Method `HashTable::capacity`. -/
def capacity (t : HashTable) : Nat := t.buckets_.length

/-- Method `HashTable::empty`. -/
def empty (t : HashTable) : Bool := t.size == 0

/-- Method `HashTable::load_factor`. -/
def load_factor (t : HashTable) : ℚ := t.load_factor_

/-- Method `HashTable::hash`: the bucket index of a key under the current capacity. -/
def hash (hash : Int → Nat → Nat) (t : HashTable) (key : Int) : Nat :=
  hash key t.buckets_.length

/-- The constructor `HashTable::HashTable(capacity, load_factor)`: both arguments are validated,
then `capacity` empty buckets are pushed. `num_keys_` starts at 0. -/
def new (capacity : Int) (load_factor : ℚ) : Except String HashTable :=
  if capacity ≤ 0 then
    .error "hash table capacity must be greater than zero"
  else if load_factor ≤ 0 ∨ load_factor > 1 then
    .error "hash table load factor must be in range [0...1]"
  else
    .ok { buckets_ := List.replicate capacity.toNat [], num_keys_ := 0,
          load_factor_ := load_factor }

/-- The scan loop shared by `Search` and `Remove`: the first pair of the bucket
whose key equals `key`. -/
def findPair (b : Bucket) (key : Int) : Option (Int × String) :=
  if b.isEmpty then none else b.find? (fun pair => pair.1 == key)

/-- Method `HashTable::Search`. The outer `none` is an out-of-range bucket index. -/
def Search (hash : Int → Nat → Nat) (t : HashTable) (key : Int) : Option (Option String) :=
  let key_hash := t.hash hash key
  match t.buckets_[key_hash]? with
  | none => none
  | some bucket =>
    match findPair bucket key with
    | some pair => some (some pair.2)
    | none => some none

/-- Method `HashTable::ContainsKey`. -/
def ContainsKey (hash : Int → Nat → Nat) (t : HashTable) (key : Int) : Option Bool :=
  (Search hash t key).map Option.isSome

/-- The update loop of `Put`: overwrite the value of the first pair whose key
equals `key` and report whether there was one (`has_similar_key`). -/
def updateFirst : Bucket → Int → String → Bucket × Bool
  | [], _, _ => ([], false)
  | pair :: rest, key, value =>
    if pair.1 = key then ((pair.1, value) :: rest, true)
    else ((pair :: (updateFirst rest key value).1), (updateFirst rest key value).2)

/-- The resize loop of `Put`: every non-empty old chain is copied as a whole
into the new bucket chosen by the key of its front pair. -/
def rehash (hash : Int → Nat → Nat) : List Bucket → List Bucket → Option (List Bucket)
  | [], new_buckets => some new_buckets
  | list :: rest, new_buckets =>
    match list with
    | [] => rehash hash rest new_buckets
    | front :: _ =>
      let new_hash := hash front.1 new_buckets.length
      if new_hash < new_buckets.length then
        rehash hash rest (new_buckets.set new_hash list)
      else none

/-- Method `HashTable::Put`. `none` is an out-of-range bucket index. -/
def Put (hash : Int → Nat → Nat) (t : HashTable) (key : Int) (value : String) :
    Option HashTable :=
  let key_hash := t.hash hash key
  match t.buckets_[key_hash]? with
  | none => none
  | some bucket =>
    let scanned := if bucket.isEmpty then (bucket, false) else updateFirst bucket key value
    let bucket1 := if scanned.2 then scanned.1 else scanned.1 ++ [(key, value)]
    let buckets := t.buckets_.set key_hash bucket1
    let num_keys := t.num_keys_ + 1
    if loadRatio num_keys buckets.length ≥ t.load_factor_ then
      match rehash hash buckets (List.replicate (buckets.length * kGrowthCoefficient) []) with
      | none => none
      | some new_buckets =>
        some { buckets_ := new_buckets, num_keys_ := num_keys, load_factor_ := t.load_factor_ }
    else
      some { buckets_ := buckets, num_keys_ := num_keys, load_factor_ := t.load_factor_ }

/-- Method `HashTable::Remove`: the returned value and the table afterwards.
`std::list::remove` erases every element equal to the found pair. -/
def Remove (hash : Int → Nat → Nat) (t : HashTable) (key : Int) :
    Option (Option String × HashTable) :=
  let key_hash := t.hash hash key
  match t.buckets_[key_hash]? with
  | none => none
  | some bucket =>
    match findPair bucket key with
    | some pair_to_delete =>
      some (some pair_to_delete.2,
        { t with buckets_ := t.buckets_.set key_hash (bucket.filter (fun p => p ≠ pair_to_delete)) })
    | none => some (none, t)

/-- Method `HashTable::keys`: every key of every bucket inserted into a set. -/
def keys (t : HashTable) : Finset Int :=
  t.buckets_.foldl (fun keys bucket => bucket.foldl (fun ks pair => insert pair.1 ks) keys) ∅

/-- Method `HashTable::values`: every value pushed back, bucket by bucket. -/
def values (t : HashTable) : List String :=
  t.buckets_.foldl (fun values bucket => bucket.foldl (fun vs pair => vs ++ [pair.2]) values) []

/-- A run of `Put` calls, in order. -/
def PutAll (hash : Int → Nat → Nat) : HashTable → List (Int × String) → Option HashTable
  | t, [] => some t
  | t, (key, value) :: rest =>
    match Put hash t key value with
    | none => none
    | some t1 => PutAll hash t1 rest

/-- Tables obtained from a successful construction by `Put` and `Remove` calls. -/
inductive Reachable (hash : Int → Nat → Nat) : HashTable → Prop
  | init (capacity : Int) (load_factor : ℚ) (t : HashTable) :
      new capacity load_factor = .ok t → Reachable hash t
  | put (t t1 : HashTable) (key : Int) (value : String) :
      Reachable hash t → Put hash t key value = some t1 → Reachable hash t1
  | remove (t t1 : HashTable) (key : Int) (r : Option String) :
      Reachable hash t → Remove hash t key = some (r, t1) → Reachable hash t1

/-- Within every bucket the keys are pairwise distinct. -/
def DistinctKeys (t : HashTable) : Prop :=
  ∀ b ∈ t.buckets_, (b.map Prod.fst).Nodup

/-- The front pair of every non-empty bucket hashes to the index of that bucket. -/
def FrontHome (hash : Int → Nat → Nat) (buckets : List Bucket) : Prop :=
  ∀ (i : Nat) (front : Int × String) (rest : Bucket),
    buckets[i]? = some (front :: rest) → hash front.1 buckets.length = i

/-- Every stored pair sits in the bucket whose index is the hash of its key under
the current capacity (so a key occurs in one bucket only). -/
def KeysHome (hash : Int → Nat → Nat) (t : HashTable) : Prop :=
  ∀ (i : Nat) (bucket : Bucket) (pair : Int × String),
    t.buckets_[i]? = some bucket → pair ∈ bucket → hash pair.1 t.capacity = i

/-- One call of the mutating interface: `Put(key, value)` or `Remove(key)`. -/
inductive Op where
  | put (key : Int) (value : String)
  | remove (key : Int)

/-- A run of `Put` and `Remove` calls, in order; the value a `Remove` returns is
dropped. -/
def run (hash : Int → Nat → Nat) : HashTable → List Op → Option HashTable
  | t, [] => some t
  | t, Op.put key value :: rest =>
    match Put hash t key value with
    | none => none
    | some t1 => run hash t1 rest
  | t, Op.remove key :: rest =>
    match Remove hash t key with
    | none => none
    | some result => run hash result.2 rest

/-- The number of `Put` calls of a run. -/
def countPuts : List Op → Nat
  | [] => 0
  | Op.put _ _ :: rest => countPuts rest + 1
  | Op.remove _ :: rest => countPuts rest

end HashTable

end itis

/-! ## The modelled hash function -/

namespace utils

theorem hash_inRange : itis.HashInRange utils.hash := by
  intro key size h
  exact Nat.mod_lt _ h

theorem hash_modular : itis.HashModular utils.hash :=
  ⟨fun key => (key % 2 ^ 64).toNat, fun key size => by simp [utils.hash]⟩

end utils

/-! ## Bucket scans, the resize loop and invariants -/

namespace itis
namespace HashTable

/-! ## The double quotient of the growth test -/

/-- The binade of a positive rational. -/
theorem log_eq_of_bounds (q : ℚ) (e : ℤ) (h1 : (2 : ℚ) ^ e ≤ q)
    (h2 : q < (2 : ℚ) ^ (e + 1)) : Int.log 2 q = e := by
  have hq : 0 < q := lt_of_lt_of_le (by positivity) h1
  have a : e ≤ Int.log 2 q :=
    (Int.zpow_le_iff_le_log (by decide) hq).1 (by exact_mod_cast h1)
  have b : Int.log 2 q < e + 1 :=
    (Int.lt_zpow_iff_log_lt (by decide) hq).1 (by exact_mod_cast h2)
  omega

/-- Rounding of a value in the binade `[2^e, 2^(e+1))` whose scaled value lies
strictly within half a unit of the integer `m`. -/
theorem roundDouble_eq (q : ℚ) (e m : ℤ) (h1 : (2 : ℚ) ^ e ≤ q)
    (h2 : q < (2 : ℚ) ^ (e + 1)) (hlo : (m : ℚ) - 1 / 2 < q / 2 ^ (e - 52))
    (hhi : q / 2 ^ (e - 52) < (m : ℚ) + 1 / 2) :
    roundDouble q = m * 2 ^ (e - 52) := by
  have hq : 0 < q := lt_of_lt_of_le (by positivity) h1
  unfold roundDouble
  rw [if_neg (not_le.mpr hq), log_eq_of_bounds q e h1 h2]
  simp only
  by_cases hge : (m : ℚ) ≤ q / 2 ^ (e - 52)
  · have hfl : ⌊q / (2 : ℚ) ^ (e - 52)⌋ = m := by
      rw [Int.floor_eq_iff]; constructor <;> linarith
    rw [hfl, if_pos (by linarith)]
  · have hfl : ⌊q / (2 : ℚ) ^ (e - 52)⌋ = m - 1 := by
      rw [Int.floor_eq_iff]; push_cast; constructor <;> linarith
    rw [hfl]
    push_cast
    rw [if_neg (by linarith), if_pos (by linarith)]
    ring

theorem roundDouble_1 : roundDouble 1 = 1 := by
  rw [roundDouble_eq 1 0 (2 ^ 52) (by norm_num) (by norm_num) (by norm_num) (by norm_num)]
  norm_num

theorem roundDouble_2 : roundDouble 2 = 2 := by
  rw [roundDouble_eq 2 1 (2 ^ 52) (by norm_num) (by norm_num) (by norm_num) (by norm_num)]
  norm_num

theorem roundDouble_3 : roundDouble 3 = 3 := by
  rw [roundDouble_eq 3 1 (3 * 2 ^ 51) (by norm_num) (by norm_num) (by norm_num)
    (by norm_num)]
  norm_num

theorem roundDouble_4 : roundDouble 4 = 4 := by
  rw [roundDouble_eq 4 2 (2 ^ 52) (by norm_num) (by norm_num) (by norm_num) (by norm_num)]
  norm_num

theorem roundDouble_8 : roundDouble 8 = 8 := by
  rw [roundDouble_eq 8 3 (2 ^ 52) (by norm_num) (by norm_num) (by norm_num) (by norm_num)]
  norm_num

theorem roundDouble_10 : roundDouble 10 = 10 := by
  rw [roundDouble_eq 10 3 (5 * 2 ^ 50) (by norm_num) (by norm_num) (by norm_num)
    (by norm_num)]
  norm_num

theorem roundDouble_half : roundDouble (1 / 2) = 1 / 2 := by
  rw [roundDouble_eq (1 / 2) (-1) (2 ^ 52) (by norm_num) (by norm_num) (by norm_num)
    (by norm_num)]
  norm_num

theorem roundDouble_quarter : roundDouble (1 / 4) = 1 / 4 := by
  rw [roundDouble_eq (1 / 4) (-2) (2 ^ 52) (by norm_num) (by norm_num) (by norm_num)
    (by norm_num)]
  norm_num

theorem roundDouble_three_quarters : roundDouble (3 / 4) = 3 / 4 := by
  rw [roundDouble_eq (3 / 4) (-1) (3 * 2 ^ 51) (by norm_num) (by norm_num) (by norm_num)
    (by norm_num)]
  norm_num

/-- The double nearest to 0.1: the exact tenth rounds up. -/
theorem roundDouble_tenth :
    roundDouble (1 / 10) = 3602879701896397 / 2 ^ 55 := by
  rw [roundDouble_eq (1 / 10) (-4) 7205759403792794 (by norm_num) (by norm_num)
    (by norm_num) (by norm_num)]
  norm_num

/-- The double nearest to 0.2: the exact fifth rounds up. -/
theorem roundDouble_fifth :
    roundDouble (1 / 5) = 3602879701896397 / 2 ^ 54 := by
  rw [roundDouble_eq (1 / 5) (-3) 7205759403792794 (by norm_num) (by norm_num)
    (by norm_num) (by norm_num)]
  norm_num

@[simp]
theorem loadRatio_1_2 : loadRatio 1 2 = 1 / 2 := by
  simp only [loadRatio, Nat.cast_one, Nat.cast_ofNat, roundDouble_1, roundDouble_2,
    roundDouble_half]

@[simp]
theorem loadRatio_2_2 : loadRatio 2 2 = 1 := by
  simp only [loadRatio, Nat.cast_ofNat, roundDouble_2]
  norm_num [roundDouble_1]

@[simp]
theorem loadRatio_1_4 : loadRatio 1 4 = 1 / 4 := by
  simp only [loadRatio, Nat.cast_one, Nat.cast_ofNat, roundDouble_1, roundDouble_4,
    roundDouble_quarter]

@[simp]
theorem loadRatio_2_4 : loadRatio 2 4 = 1 / 2 := by
  simp only [loadRatio, Nat.cast_ofNat, roundDouble_2, roundDouble_4]
  norm_num [roundDouble_half]

@[simp]
theorem loadRatio_3_4 : loadRatio 3 4 = 3 / 4 := by
  simp only [loadRatio, Nat.cast_ofNat, roundDouble_3, roundDouble_4,
    roundDouble_three_quarters]

@[simp]
theorem loadRatio_4_8 : loadRatio 4 8 = 1 / 2 := by
  simp only [loadRatio, Nat.cast_ofNat, roundDouble_4, roundDouble_8]
  norm_num [roundDouble_half]

/-- The double quotient `1.0 / 10` is the double nearest to 0.1. -/
theorem loadRatio_1_10 : loadRatio 1 10 = 3602879701896397 / 2 ^ 55 := by
  simp only [loadRatio, Nat.cast_one, Nat.cast_ofNat, roundDouble_1, roundDouble_10,
    roundDouble_tenth]

/-- The double quotient `2.0 / 10` is the double nearest to 0.2. -/
theorem loadRatio_2_10 : loadRatio 2 10 = 3602879701896397 / 2 ^ 54 := by
  simp only [loadRatio, Nat.cast_ofNat, roundDouble_2, roundDouble_10]
  norm_num [roundDouble_fifth]

/-- The emptiness guard in front of the scan loop is subsumed by the loop. -/
theorem findPair_eq (b : Bucket) (key : Int) :
    findPair b key = b.find? (fun pair => pair.1 == key) := by
  cases b <;> simp [findPair]

theorem updateFirst_fst_keys (b : Bucket) (key : Int) (value : String) :
    (updateFirst b key value).1.map Prod.fst = b.map Prod.fst := by
  induction b with
  | nil => simp [updateFirst]
  | cons p rest ih =>
    by_cases h : p.1 = key
    · simp [updateFirst, h]
    · simp [updateFirst, h, ih]

theorem updateFirst_snd (b : Bucket) (key : Int) (value : String) :
    (updateFirst b key value).2 = true ↔ key ∈ b.map Prod.fst := by
  induction b with
  | nil => simp [updateFirst]
  | cons p rest ih =>
    by_cases h : p.1 = key
    · simp [updateFirst, h]
    · have h1 : ¬ key = p.1 := fun e => h e.symm
      simp [updateFirst, h, h1, ih]

theorem updateFirst_absent (b : Bucket) (key : Int) (value : String)
    (h : key ∉ b.map Prod.fst) : (updateFirst b key value).1 = b := by
  induction b with
  | nil => simp [updateFirst]
  | cons p rest ih =>
    have h1 : ¬ p.1 = key := fun e => h (by simp [e.symm])
    have h2 : key ∉ rest.map Prod.fst := fun e => h (by simp at e ⊢; exact Or.inr e)
    simp [updateFirst, h1, ih h2]

/-- The bucket that `Put` writes back: updated in place or extended at the end. -/
theorem put_bucket_eq (b : Bucket) (key : Int) (value : String) :
    (if (if b.isEmpty then (b, false) else updateFirst b key value).2 then
        (if b.isEmpty then (b, false) else updateFirst b key value).1
      else (if b.isEmpty then (b, false) else updateFirst b key value).1 ++ [(key, value)]) =
    if key ∈ b.map Prod.fst then (updateFirst b key value).1 else b ++ [(key, value)] := by
  cases b with
  | nil => simp
  | cons p rest =>
    by_cases h : key ∈ (p :: rest).map Prod.fst
    · have := (updateFirst_snd (p :: rest) key value).2 h
      simp only [List.isEmpty_cons, Bool.false_eq_true, if_false, this, if_true, h]
    · have h2 : ¬ (updateFirst (p :: rest) key value).2 = true :=
        fun e => h ((updateFirst_snd (p :: rest) key value).1 e)
      simp only [List.isEmpty_cons, Bool.false_eq_true, if_false, h2, h, updateFirst_absent _ _ _ h]

theorem find_updateFirst_same (b : Bucket) (key : Int) (value : String)
    (h : key ∈ b.map Prod.fst) :
    (updateFirst b key value).1.find? (fun pair => pair.1 == key) = some (key, value) := by
  induction b with
  | nil => simp at h
  | cons p rest ih =>
    by_cases h1 : p.1 = key
    · simp [updateFirst, h1]
    · have h2 : key ∈ rest.map Prod.fst := by
        rw [List.map_cons, List.mem_cons] at h
        rcases h with h | h
        · exact absurd h.symm h1
        · exact h
      simp [updateFirst, h1, List.find?_cons, ih h2]

theorem find_updateFirst_other (b : Bucket) (key other : Int) (value : String)
    (h : other ≠ key) :
    ((updateFirst b key value).1.find? (fun pair => pair.1 == other)).map Prod.snd =
      (b.find? (fun pair => pair.1 == other)).map Prod.snd := by
  induction b with
  | nil => simp [updateFirst]
  | cons p rest ih =>
    by_cases h1 : p.1 = key
    · have h2 : ¬ key = other := fun e => h e.symm
      have h3 : ¬ p.1 = other := fun e => h (by rw [← e, h1])
      simp [updateFirst, h1, List.find?_cons, h2]
    · by_cases h3 : p.1 = other
      · rw [updateFirst, if_neg h1]
        simp [List.find?_cons, h3]
      · simp [updateFirst, h1, List.find?_cons, h3, ih]

theorem rehash_length (hash : Int → Nat → Nat) :
    ∀ (old acc r : List Bucket), rehash hash old acc = some r → r.length = acc.length := by
  intro old
  induction old with
  | nil => intro acc r h; simp [rehash] at h; rw [← h]
  | cons b rest ih =>
    intro acc r h
    cases b with
    | nil => exact ih acc r (by simpa [rehash] using h)
    | cons front tail =>
      by_cases hlt : hash front.1 acc.length < acc.length
      · have := ih _ r (by simpa [rehash, hlt] using h)
        simpa using this
      · simp [rehash, hlt] at h

theorem rehash_total (hash : Int → Nat → Nat) (hr : HashInRange hash) :
    ∀ (old acc : List Bucket), 0 < acc.length → ∃ r, rehash hash old acc = some r := by
  intro old
  induction old with
  | nil => intro acc _; exact ⟨acc, by simp [rehash]⟩
  | cons b rest ih =>
    intro acc hpos
    cases b with
    | nil => simpa [rehash] using ih acc hpos
    | cons front tail =>
      have hlt := hr front.1 acc.length hpos
      simpa [rehash, hlt] using ih (acc.set (hash front.1 acc.length) (front :: tail)) (by simpa using hpos)

theorem rehash_mem (hash : Int → Nat → Nat) :
    ∀ (old acc r : List Bucket), rehash hash old acc = some r →
      ∀ b ∈ r, b ∈ acc ∨ b ∈ old := by
  intro old
  induction old with
  | nil => intro acc r h b hb; simp [rehash] at h; rw [← h] at hb; exact Or.inl hb
  | cons c rest ih =>
    intro acc r h b hb
    cases c with
    | nil =>
      rcases ih acc r (by simpa [rehash] using h) b hb with h1 | h1
      · exact Or.inl h1
      · exact Or.inr (List.mem_cons_of_mem _ h1)
    | cons front tail =>
      by_cases hlt : hash front.1 acc.length < acc.length
      · rcases ih _ r (by simpa [rehash, hlt] using h) b hb with h1 | h1
        · rcases List.mem_or_eq_of_mem_set h1 with h2 | h2
          · exact Or.inl h2
          · exact Or.inr (by rw [h2]; exact List.mem_cons_self _ _)
        · exact Or.inr (List.mem_cons_of_mem _ h1)
      · simp [rehash, hlt] at h

/-- The bucket array right after the insert-or-update step of `Put`. -/
theorem Put_eq (hash : Int → Nat → Nat) (t : HashTable) (key : Int) (value : String)
    (bucket : Bucket) (hb : t.buckets_[hash key t.buckets_.length]? = some bucket) :
    Put hash t key value =
      if loadRatio (t.num_keys_ + 1) t.buckets_.length ≥ t.load_factor_ then
        (rehash hash
          (t.buckets_.set (hash key t.buckets_.length)
            (if key ∈ bucket.map Prod.fst then (updateFirst bucket key value).1
              else bucket ++ [(key, value)]))
          (List.replicate (t.buckets_.length * 2) [])).map
          (fun new_buckets =>
            { buckets_ := new_buckets, num_keys_ := t.num_keys_ + 1,
              load_factor_ := t.load_factor_ })
      else
        some { buckets_ := t.buckets_.set (hash key t.buckets_.length)
                (if key ∈ bucket.map Prod.fst then (updateFirst bucket key value).1
                  else bucket ++ [(key, value)]),
               num_keys_ := t.num_keys_ + 1, load_factor_ := t.load_factor_ } := by
  unfold Put
  simp only [HashTable.hash, hb, put_bucket_eq, List.length_set, kGrowthCoefficient]
  split
  · cases rehash hash _ _ <;> rfl
  · rfl

theorem bucket_of_inRange (hash : Int → Nat → Nat) (hr : HashInRange hash) (t : HashTable)
    (hc : 0 < t.capacity) (key : Int) :
    ∃ bucket, t.buckets_[hash key t.buckets_.length]? = some bucket := by
  have h := hr key t.buckets_.length hc
  exact ⟨t.buckets_[hash key t.buckets_.length], List.getElem?_eq_getElem h⟩

theorem keys_fold (bs : List Bucket) (s : Finset Int) :
    bs.foldl (fun keys bucket => bucket.foldl (fun ks pair => insert pair.1 ks) keys) s =
      s ∪ (bs.flatten.map Prod.fst).toFinset := by
  have inner : ∀ (b : Bucket) (s : Finset Int),
      b.foldl (fun ks pair => insert pair.1 ks) s = s ∪ (b.map Prod.fst).toFinset := by
    intro b
    induction b with
    | nil => intro s; simp
    | cons p rest ih =>
      intro s
      rw [List.foldl_cons, ih]
      ext x
      simp
  induction bs generalizing s with
  | nil => simp
  | cons b rest ih =>
    rw [List.foldl_cons, ih, inner]
    ext x
    simp

theorem values_fold (bs : List Bucket) (vs : List String) :
    bs.foldl (fun values bucket => bucket.foldl (fun vs pair => vs ++ [pair.2]) values) vs =
      vs ++ bs.flatten.map Prod.snd := by
  have inner : ∀ (b : Bucket) (vs : List String),
      b.foldl (fun vs pair => vs ++ [pair.2]) vs = vs ++ b.map Prod.snd := by
    intro b
    induction b with
    | nil => intro vs; simp
    | cons p rest ih => intro vs; rw [List.foldl_cons, ih]; simp
  induction bs generalizing vs with
  | nil => simp
  | cons b rest ih => rw [List.foldl_cons, ih, inner]; simp

/-- The key set is the set of first components of all stored pairs. -/
theorem keys_eq (t : HashTable) : t.keys = (t.buckets_.flatten.map Prod.fst).toFinset := by
  simp [keys, keys_fold]

/-- The value sequence lists the second components of all stored pairs. -/
theorem values_eq (t : HashTable) : t.values = t.buckets_.flatten.map Prod.snd := by
  simp [values, values_fold]

theorem flatten_replicate_nil (n : Nat) : (List.replicate n ([] : Bucket)).flatten = [] := by
  induction n with
  | zero => rfl
  | succ n ih => simp [List.replicate_succ, ih]

theorem put_bucket_nodup (b : Bucket) (key : Int) (value : String)
    (h : (b.map Prod.fst).Nodup) :
    ((if key ∈ b.map Prod.fst then (updateFirst b key value).1
      else b ++ [(key, value)]).map Prod.fst).Nodup := by
  by_cases hk : key ∈ b.map Prod.fst
  · rw [if_pos hk, updateFirst_fst_keys]; exact h
  · rw [if_neg hk, List.map_append]
    refine List.Nodup.append h (by simp) ?_
    intro x hx hx1
    simp at hx1
    exact hk (hx1 ▸ hx)

theorem Put_some_bucket (hash : Int → Nat → Nat) (t t1 : HashTable) (key : Int)
    (value : String) (h : Put hash t key value = some t1) :
    ∃ bucket, t.buckets_[hash key t.buckets_.length]? = some bucket := by
  cases hb : t.buckets_[hash key t.buckets_.length]? with
  | none => simp [Put, HashTable.hash, hb] at h
  | some bucket => exact ⟨bucket, rfl⟩

theorem distinct_new (capacity : Int) (load_factor : ℚ) (t : HashTable)
    (h : new capacity load_factor = .ok t) : DistinctKeys t := by
  unfold new at h
  split at h
  · cases h
  · split at h
    · cases h
    · cases h
      intro b hb
      rw [List.eq_of_mem_replicate hb]
      exact List.nodup_nil

theorem distinct_Put (hash : Int → Nat → Nat) (t t1 : HashTable) (key : Int)
    (value : String) (h : Put hash t key value = some t1) (hd : DistinctKeys t) :
    DistinctKeys t1 := by
  obtain ⟨bucket, hb⟩ := Put_some_bucket hash t t1 key value h
  rw [Put_eq hash t key value bucket hb] at h
  have hmem : bucket ∈ t.buckets_ := List.mem_iff_getElem?.2 ⟨_, hb⟩
  have hset : ∀ b ∈ t.buckets_.set (hash key t.buckets_.length)
      (if key ∈ bucket.map Prod.fst then (updateFirst bucket key value).1
        else bucket ++ [(key, value)]), (b.map Prod.fst).Nodup := by
    intro b hb1
    rcases List.mem_or_eq_of_mem_set hb1 with h1 | h1
    · exact hd b h1
    · rw [h1]; exact put_bucket_nodup bucket key value (hd bucket hmem)
  split at h
  · cases hr : rehash hash
        (t.buckets_.set (hash key t.buckets_.length)
          (if key ∈ bucket.map Prod.fst then (updateFirst bucket key value).1
            else bucket ++ [(key, value)]))
        (List.replicate (t.buckets_.length * 2) []) with
    | none => simp [hr] at h
    | some r =>
      simp only [hr, Option.map_some', Option.some.injEq] at h
      subst h
      intro b hb1
      rcases rehash_mem hash _ _ _ hr b hb1 with h1 | h1
      · rw [List.eq_of_mem_replicate h1]; exact List.nodup_nil
      · exact hset b h1
  · simp only [Option.some.injEq] at h
    subst h
    exact hset

theorem distinct_Remove (hash : Int → Nat → Nat) (t t1 : HashTable) (key : Int)
    (r : Option String) (h : Remove hash t key = some (r, t1)) (hd : DistinctKeys t) :
    DistinctKeys t1 := by
  unfold Remove at h
  cases hb : t.buckets_[t.hash hash key]? with
  | none => simp [hb] at h
  | some bucket =>
    simp only [hb] at h
    have hmem : bucket ∈ t.buckets_ := List.mem_iff_getElem?.2 ⟨_, hb⟩
    cases hf : findPair bucket key with
    | none =>
      simp only [hf, Option.some.injEq, Prod.mk.injEq] at h
      rw [← h.2]; exact hd
    | some pair =>
      simp only [hf, Option.some.injEq, Prod.mk.injEq] at h
      rw [← h.2]
      intro b hb1
      rcases List.mem_or_eq_of_mem_set hb1 with h1 | h1
      · exact hd b h1
      · rw [h1]
        exact List.Nodup.sublist (List.Sublist.map _ (List.filter_sublist _)) (hd bucket hmem)

/-- Every reachable table keeps the keys of each bucket pairwise distinct. -/
theorem reachable_distinct (hash : Int → Nat → Nat) (t : HashTable)
    (h : Reachable hash t) : DistinctKeys t := by
  induction h with
  | init capacity load_factor t h => exact distinct_new capacity load_factor t h
  | put t t1 key value _ h ih => exact distinct_Put hash t t1 key value h ih
  | remove t t1 key r _ h ih => exact distinct_Remove hash t t1 key r h ih

theorem hashModular_inRange (hash : Int → Nat → Nat) (hm : HashModular hash) :
    HashInRange hash := by
  obtain ⟨code, hcode⟩ := hm
  intro key size hpos
  rw [hcode]
  exact Nat.mod_lt _ hpos

/-- Appending to one bucket appends to the pairs stored, up to order. -/
theorem flatten_set_perm (x : Bucket) :
    ∀ (l : List Bucket) (i : Nat) (b : Bucket), l[i]? = some b →
      (l.set i (b ++ x)).flatten.Perm (l.flatten ++ x) := by
  intro l
  induction l with
  | nil => intro i b h; simp at h
  | cons c rest ih =>
    intro i b h
    cases i with
    | zero =>
      simp only [List.getElem?_cons_zero, Option.some.injEq] at h
      subst h
      simp only [List.set_cons_zero, List.flatten_cons, List.append_assoc]
      exact List.Perm.append_left _ List.perm_append_comm
    | succ i =>
      simp only [List.getElem?_cons_succ] at h
      simp only [List.set_cons_succ, List.flatten_cons, List.append_assoc]
      exact List.Perm.append_left _ (ih i b h)

theorem frontHome_set (hash : Int → Nat → Nat) (l : List Bucket) (i : Nat) (b : Bucket)
    (hl : FrontHome hash l)
    (hb : ∀ front rest, b = front :: rest → hash front.1 l.length = i) :
    FrontHome hash (l.set i b) := by
  intro j front rest hj
  rw [List.length_set]
  rw [List.getElem?_set] at hj
  by_cases hij : i = j
  · rw [if_pos hij] at hj
    split at hj
    · simp only [Option.some.injEq] at hj
      rw [← hij]; exact hb front rest hj
    · cases hj
  · rw [if_neg hij] at hj
    exact hl j front rest hj

/-- When the fronts of the old chains go to pairwise different, still empty new
buckets, the resize loop returns and moves every stored pair. -/
theorem rehash_perm (hash : Int → Nat → Nat) :
    ∀ (old acc : List Bucket),
      List.Pairwise (fun b b1 => ∀ p rest p1 rest1, b = p :: rest → b1 = p1 :: rest1 →
        hash p.1 acc.length ≠ hash p1.1 acc.length) old →
      (∀ b ∈ old, ∀ p rest, b = p :: rest → acc[hash p.1 acc.length]? = some []) →
      FrontHome hash acc →
      ∃ r, rehash hash old acc = some r ∧ r.flatten.Perm (acc.flatten ++ old.flatten) ∧
        FrontHome hash r ∧ r.length = acc.length := by
  intro old
  induction old with
  | nil => intro acc _ _ hf; exact ⟨acc, by simp [rehash], by simp, hf, rfl⟩
  | cons b rest ih =>
    intro acc hpw hempty hf
    rw [List.pairwise_cons] at hpw
    cases b with
    | nil =>
      obtain ⟨r, h1, h2, h3, h4⟩ := ih acc hpw.2
        (fun b hb => hempty b (List.mem_cons_of_mem _ hb)) hf
      exact ⟨r, by simpa [rehash] using h1, by simpa using h2, h3, h4⟩
    | cons p tl =>
      have hslot := hempty (p :: tl) (List.mem_cons_self _ _) p tl rfl
      have hlt : hash p.1 acc.length < acc.length := by
        by_contra hge
        rw [List.getElem?_eq_none (not_lt.mp hge)] at hslot
        cases hslot
      have hlen : (acc.set (hash p.1 acc.length) (p :: tl)).length = acc.length :=
        List.length_set _ _ _
      obtain ⟨r, h1, h2, h3, h4⟩ := ih (acc.set (hash p.1 acc.length) (p :: tl))
        (by rw [hlen]; exact hpw.2)
        (by
          intro b hb q qs hq
          rw [hlen, List.getElem?_set]
          have hne := hpw.1 b hb p tl q qs rfl hq
          rw [if_neg hne]
          exact hempty b (List.mem_cons_of_mem _ hb) q qs hq)
        (frontHome_set hash acc _ _ hf (by
          intro front rest1 hfr
          cases hfr
          rfl))
      refine ⟨r, ?_, ?_, h3, h4.trans hlen⟩
      · simp only [rehash, hlt, if_true]; exact h1
      · refine h2.trans ?_
        have := flatten_set_perm (p :: tl) acc (hash p.1 acc.length) [] hslot
        simp only [List.nil_append] at this
        simp only [List.flatten_cons]
        rw [← List.append_assoc]
        exact List.Perm.append_right _ this

theorem frontHome_replicate (hash : Int → Nat → Nat) (n : Nat) :
    FrontHome hash (List.replicate n ([] : Bucket)) := by
  intro i front rest h
  rw [List.getElem?_replicate] at h
  split at h <;> cases h

/-- A `Put` of a key stored nowhere in the table returns and adds exactly the new
pair, for a modular hash and a table whose chain fronts are in their buckets. -/
theorem Put_fresh_key (hash : Int → Nat → Nat) (hm : HashModular hash) (t : HashTable)
    (hc : 0 < t.buckets_.length) (hf : FrontHome hash t.buckets_) (key : Int)
    (value : String) (hk : key ∉ t.buckets_.flatten.map Prod.fst) :
    ∃ t1, Put hash t key value = some t1 ∧ 0 < t1.buckets_.length ∧
      FrontHome hash t1.buckets_ ∧
      t1.buckets_.flatten.Perm (t.buckets_.flatten ++ [(key, value)]) := by
  have hr := hashModular_inRange hash hm
  obtain ⟨bucket, hb⟩ := bucket_of_inRange hash hr t hc key
  have hmem : bucket ∈ t.buckets_ := List.mem_iff_getElem?.2 ⟨_, hb⟩
  have hkb : key ∉ bucket.map Prod.fst := by
    intro hin
    apply hk
    rw [List.mem_map] at hin ⊢
    obtain ⟨p, hp, hpk⟩ := hin
    exact ⟨p, List.mem_flatten.2 ⟨bucket, hmem, hp⟩, hpk⟩
  rw [Put_eq hash t key value bucket hb]
  simp only [if_neg hkb]
  have hperm := flatten_set_perm [(key, value)] t.buckets_ _ bucket hb
  have hfront : FrontHome hash
      (t.buckets_.set (hash key t.buckets_.length) (bucket ++ [(key, value)])) := by
    apply frontHome_set hash _ _ _ hf
    intro front rest hfr
    cases bucket with
    | nil =>
      simp only [List.nil_append, List.cons.injEq] at hfr
      rw [← hfr.1]
    | cons q qs =>
      simp only [List.cons_append, List.cons.injEq] at hfr
      rw [← hfr.1]
      exact hf _ q qs hb
  by_cases hg : loadRatio (t.num_keys_ + 1) t.buckets_.length ≥ t.load_factor_
  · rw [if_pos hg]
    obtain ⟨code, hcode⟩ := hm
    have hlenB : (t.buckets_.set (hash key t.buckets_.length)
        (bucket ++ [(key, value)])).length = t.buckets_.length := List.length_set _ _ _
    obtain ⟨r, h1, h2, h3, h4⟩ := rehash_perm hash
      (t.buckets_.set (hash key t.buckets_.length) (bucket ++ [(key, value)]))
      (List.replicate (t.buckets_.length * 2) [])
      (by
        rw [List.pairwise_iff_getElem]
        intro i j hi hj hij p rest p1 rest1 hp hp1 heq
        have e1 := hfront i p rest (by rw [List.getElem?_eq_getElem hi, hp])
        have e2 := hfront j p1 rest1 (by rw [List.getElem?_eq_getElem hj, hp1])
        rw [hlenB, hcode] at e1 e2
        rw [List.length_replicate, hcode, hcode] at heq
        have e3 := congrArg (fun x => x % t.buckets_.length) heq
        simp only [Nat.mod_mul_right_mod] at e3
        omega)
      (by
        intro b _ p rest _
        rw [List.getElem?_replicate, List.length_replicate,
          if_pos (hr p.1 (t.buckets_.length * 2) (by omega))])
      (frontHome_replicate hash _)
    refine ⟨{ buckets_ := r, num_keys_ := t.num_keys_ + 1, load_factor_ := t.load_factor_ },
      ?_, ?_, h3, ?_⟩
    · rw [h1]; rfl
    · rw [h4, List.length_replicate]; omega
    · refine h2.trans ?_
      rw [flatten_replicate_nil, List.nil_append]
      exact hperm
  · rw [if_neg hg]
    exact ⟨_, rfl, by rw [List.length_set]; exact hc, hfront, hperm⟩

theorem PutAll_perm (hash : Int → Nat → Nat) (hm : HashModular hash) :
    ∀ (ops : List (Int × String)) (t : HashTable), 0 < t.buckets_.length →
      FrontHome hash t.buckets_ →
      (∀ k ∈ ops.map Prod.fst, k ∉ t.buckets_.flatten.map Prod.fst) →
      (ops.map Prod.fst).Nodup →
      ∃ t1, PutAll hash t ops = some t1 ∧
        t1.buckets_.flatten.Perm (t.buckets_.flatten ++ ops) := by
  intro ops
  induction ops with
  | nil => intro t _ _ _ _; exact ⟨t, rfl, by simp⟩
  | cons op rest ih =>
    intro t hc hf hnew hnd
    obtain ⟨key, value⟩ := op
    rw [List.map_cons, List.nodup_cons] at hnd
    obtain ⟨t1, h1, h2, h3, h4⟩ := Put_fresh_key hash hm t hc hf key value
      (hnew key (by simp))
    obtain ⟨t2, h5, h6⟩ := ih t1 h2 h3
      (by
        intro k hk hin
        have hin1 : k ∈ (t.buckets_.flatten ++ [(key, value)]).map Prod.fst :=
          (List.Perm.map Prod.fst h4).mem_iff.1 hin
        rw [List.map_append, List.mem_append] at hin1
        rcases hin1 with hin1 | hin1
        · exact hnew k (by rw [List.map_cons]; exact List.mem_cons_of_mem _ hk) hin1
        · simp only [List.map_cons, List.map_nil, List.mem_singleton] at hin1
          exact hnd.1 (hin1 ▸ hk))
      hnd.2
    refine ⟨t2, ?_, ?_⟩
    · simp only [PutAll, h1, h5]
    · refine h6.trans ?_
      have := List.Perm.append_right rest h4
      simpa using this

/-! ## Counters, capacity and totality -/

theorem new_shape (capacity : Int) (load_factor : ℚ) (t : HashTable)
    (h : new capacity load_factor = .ok t) :
    0 < capacity ∧ t.buckets_ = List.replicate capacity.toNat [] ∧ t.num_keys_ = 0 ∧
      t.load_factor_ = load_factor := by
  unfold new at h
  split at h
  · cases h
  · split at h
    · cases h
    · cases h
      exact ⟨by omega, rfl, rfl, rfl⟩

/-- What a returning `Put` does to the counter, the capacity and the load factor. -/
theorem Put_shape (hash : Int → Nat → Nat) (t t1 : HashTable) (key : Int)
    (value : String) (h : Put hash t key value = some t1) :
    t1.num_keys_ = t.num_keys_ + 1 ∧ t1.load_factor_ = t.load_factor_ ∧
      (t1.buckets_.length = t.buckets_.length ∨
        t1.buckets_.length = t.buckets_.length * 2) := by
  obtain ⟨bucket, hb⟩ := Put_some_bucket hash t t1 key value h
  rw [Put_eq hash t key value bucket hb] at h
  split at h
  · cases hr : rehash hash
        (t.buckets_.set (hash key t.buckets_.length)
          (if key ∈ bucket.map Prod.fst then (updateFirst bucket key value).1
            else bucket ++ [(key, value)]))
        (List.replicate (t.buckets_.length * 2) []) with
    | none => simp [hr] at h
    | some r =>
      simp only [hr, Option.map_some', Option.some.injEq] at h
      subst h
      have hlen := rehash_length hash _ _ _ hr
      simp only [List.length_replicate] at hlen
      exact ⟨rfl, rfl, Or.inr hlen⟩
  · simp only [Option.some.injEq] at h
    subst h
    exact ⟨rfl, rfl, Or.inl (List.length_set _ _ _)⟩

/-- What a returning `Remove` leaves alone: counter, capacity and load factor. -/
theorem Remove_shape (hash : Int → Nat → Nat) (t t1 : HashTable) (key : Int)
    (r : Option String) (h : Remove hash t key = some (r, t1)) :
    t1.num_keys_ = t.num_keys_ ∧ t1.load_factor_ = t.load_factor_ ∧
      t1.buckets_.length = t.buckets_.length := by
  unfold Remove at h
  cases hb : t.buckets_[t.hash hash key]? with
  | none => simp [hb] at h
  | some bucket =>
    simp only [hb] at h
    cases hf : findPair bucket key with
    | none =>
      simp only [hf, Option.some.injEq, Prod.mk.injEq] at h
      rw [← h.2]; exact ⟨rfl, rfl, rfl⟩
    | some pair =>
      simp only [hf, Option.some.injEq, Prod.mk.injEq] at h
      rw [← h.2]; exact ⟨rfl, rfl, List.length_set _ _ _⟩

theorem Put_returns (hash : Int → Nat → Nat) (hr : HashInRange hash) (t : HashTable)
    (hc : 0 < t.buckets_.length) (key : Int) (value : String) :
    ∃ t1, Put hash t key value = some t1 := by
  obtain ⟨bucket, hb⟩ := bucket_of_inRange hash hr t hc key
  rw [Put_eq hash t key value bucket hb]
  split
  · obtain ⟨r, hrh⟩ := rehash_total hash hr
      (t.buckets_.set (hash key t.buckets_.length)
        (if key ∈ bucket.map Prod.fst then (updateFirst bucket key value).1
          else bucket ++ [(key, value)]))
      (List.replicate (t.buckets_.length * 2) []) (by simpa using hc)
    rw [hrh]; exact ⟨_, rfl⟩
  · exact ⟨_, rfl⟩

theorem Search_returns (hash : Int → Nat → Nat) (hr : HashInRange hash) (t : HashTable)
    (hc : 0 < t.buckets_.length) (key : Int) :
    ∃ r, Search hash t key = some r := by
  obtain ⟨bucket, hb⟩ := bucket_of_inRange hash hr t hc key
  unfold Search
  simp only [HashTable.hash, hb]
  cases findPair bucket key <;> exact ⟨_, rfl⟩

theorem Remove_returns (hash : Int → Nat → Nat) (hr : HashInRange hash) (t : HashTable)
    (hc : 0 < t.buckets_.length) (key : Int) :
    ∃ r t1, Remove hash t key = some (r, t1) := by
  obtain ⟨bucket, hb⟩ := bucket_of_inRange hash hr t hc key
  unfold Remove
  simp only [HashTable.hash, hb]
  cases findPair bucket key <;> exact ⟨_, _, rfl⟩

/-- Every reachable table has at least one bucket. -/
theorem reachable_capacity_pos (hash : Int → Nat → Nat) (t : HashTable)
    (h : Reachable hash t) : 0 < t.buckets_.length := by
  induction h with
  | init capacity load_factor t h =>
    obtain ⟨h1, h2, _, _⟩ := new_shape capacity load_factor t h
    rw [h2, List.length_replicate]; omega
  | put t t1 key value _ h ih =>
    rcases (Put_shape hash t t1 key value h).2.2 with h1 | h1 <;> omega
  | remove t t1 key r _ h ih =>
    rw [(Remove_shape hash t t1 key r h).2.2]; exact ih

/-- A run from a constructed table only visits reachable tables. -/
theorem run_reachable (hash : Int → Nat → Nat) :
    ∀ (ops : List Op) (t t1 : HashTable), Reachable hash t → run hash t ops = some t1 →
      Reachable hash t1 := by
  intro ops
  induction ops with
  | nil => intro t t1 hreach h; simp only [run, Option.some.injEq] at h; exact h ▸ hreach
  | cons op rest ih =>
    intro t t1 hreach h
    cases op with
    | put key value =>
      cases hp : Put hash t key value with
      | none => simp [run, hp] at h
      | some t2 =>
        simp only [run, hp] at h
        exact ih t2 t1 (Reachable.put t t2 key value hreach hp) h
    | remove key =>
      cases hp : Remove hash t key with
      | none => simp [run, hp] at h
      | some res =>
        simp only [run, hp] at h
        exact ih res.2 t1 (Reachable.remove t res.2 key res.1 hreach hp) h

/-- Every reachable table is the result of a run from a constructed table. -/
theorem reachable_run (hash : Int → Nat → Nat) (t : HashTable) (h : Reachable hash t) :
    ∃ capacity load_factor t0 ops, new capacity load_factor = .ok t0 ∧
      run hash t0 ops = some t := by
  have happ : ∀ (ops : List Op) (op : Op) (a b : HashTable), run hash a ops = some b →
      run hash a (ops ++ [op]) = run hash b [op] := by
    intro ops
    induction ops with
    | nil => intro op a b h; simp only [run, Option.some.injEq] at h; rw [h]; rfl
    | cons o rest ih =>
      intro op a b h
      cases o with
      | put key value =>
        cases hp : Put hash a key value with
        | none => simp [run, hp] at h
        | some a1 =>
          simp only [run, hp] at h
          simp only [List.cons_append, run, hp]
          exact ih op a1 b h
      | remove key =>
        cases hp : Remove hash a key with
        | none => simp [run, hp] at h
        | some res =>
          simp only [run, hp] at h
          simp only [List.cons_append, run, hp]
          exact ih op res.2 b h
  induction h with
  | init capacity load_factor t h => exact ⟨capacity, load_factor, t, [], h, rfl⟩
  | put t t1 key value _ h ih =>
    obtain ⟨c, lf, t0, ops, h0, h1⟩ := ih
    refine ⟨c, lf, t0, ops ++ [Op.put key value], h0, ?_⟩
    rw [happ ops _ t0 t h1]
    simp only [run, h]
  | remove t t1 key r _ h ih =>
    obtain ⟨c, lf, t0, ops, h0, h1⟩ := ih
    refine ⟨c, lf, t0, ops ++ [Op.remove key], h0, ?_⟩
    rw [happ ops _ t0 t h1]
    simp only [run, h]

/-- A run of `Put` calls returns and adds one to the counter per call. -/
theorem PutAll_size (hash : Int → Nat → Nat) (hr : HashInRange hash) :
    ∀ (ops : List (Int × String)) (t : HashTable), 0 < t.buckets_.length →
      ∃ t1, PutAll hash t ops = some t1 ∧ t1.num_keys_ = t.num_keys_ + ops.length := by
  intro ops
  induction ops with
  | nil => intro t _; exact ⟨t, rfl, rfl⟩
  | cons op rest ih =>
    intro t hc
    obtain ⟨key, value⟩ := op
    obtain ⟨t1, h1⟩ := Put_returns hash hr t hc key value
    obtain ⟨hn, _, hl⟩ := Put_shape hash t t1 key value h1
    obtain ⟨t2, h2, h3⟩ := ih t1 (by rcases hl with hl | hl <;> omega)
    refine ⟨t2, ?_, ?_⟩
    · simp only [PutAll, h1, h2]
    · rw [h3, hn, List.length_cons]; omega

/-- A run of `Put` and `Remove` calls returns; the counter grows by the number of
`Put` calls. -/
theorem run_size (hash : Int → Nat → Nat) (hr : HashInRange hash) :
    ∀ (ops : List Op) (t : HashTable), 0 < t.buckets_.length →
      ∃ t1, run hash t ops = some t1 ∧ t1.num_keys_ = t.num_keys_ + countPuts ops := by
  intro ops
  induction ops with
  | nil => intro t _; exact ⟨t, rfl, rfl⟩
  | cons op rest ih =>
    intro t hc
    cases op with
    | put key value =>
      obtain ⟨t1, h1⟩ := Put_returns hash hr t hc key value
      obtain ⟨hn, _, hl⟩ := Put_shape hash t t1 key value h1
      obtain ⟨t2, h2, h3⟩ := ih t1 (by rcases hl with hl | hl <;> omega)
      refine ⟨t2, ?_, ?_⟩
      · simp only [run, h1, h2]
      · rw [h3, hn, countPuts]; omega
    | remove key =>
      obtain ⟨r, t1, h1⟩ := Remove_returns hash hr t hc key
      obtain ⟨hn, _, hl⟩ := Remove_shape hash t t1 key r h1
      obtain ⟨t2, h2, h3⟩ := ih t1 (by omega)
      refine ⟨t2, ?_, ?_⟩
      · simp only [run, h1, h2]
      · rw [h3, hn, countPuts]

/-- Along a run the capacity is multiplied by a power of 2. -/
theorem run_capacity (hash : Int → Nat → Nat) :
    ∀ (ops : List Op) (t t1 : HashTable), run hash t ops = some t1 →
      ∃ e : Nat, t1.buckets_.length = t.buckets_.length * 2 ^ e := by
  intro ops
  induction ops with
  | nil =>
    intro t t1 h
    simp only [run, Option.some.injEq] at h
    exact ⟨0, by rw [h]; simp⟩
  | cons op rest ih =>
    intro t t1 h
    cases op with
    | put key value =>
      cases hp : Put hash t key value with
      | none => simp [run, hp] at h
      | some t2 =>
        simp only [run, hp] at h
        obtain ⟨e, he⟩ := ih t2 t1 h
        rcases (Put_shape hash t t2 key value hp).2.2 with hl | hl
        · exact ⟨e, by rw [he, hl]⟩
        · exact ⟨e + 1, by rw [he, hl, pow_succ]; ring⟩
    | remove key =>
      cases hp : Remove hash t key with
      | none => simp [run, hp] at h
      | some res =>
        simp only [run, hp] at h
        obtain ⟨e, he⟩ := ih res.2 t1 h
        exact ⟨e, by rw [he, (Remove_shape hash t res.2 key res.1 hp).2.2]⟩

/-! ## Frame lemmas for `Search` -/

/-- The result of `Search` read off the bucket of the key. -/
theorem Search_eq (hash : Int → Nat → Nat) (t : HashTable) (key : Int) :
    Search hash t key =
      (t.buckets_[hash key t.buckets_.length]?).map
        (fun bucket => (bucket.find? (fun pair => pair.1 == key)).map Prod.snd) := by
  unfold Search
  simp only [HashTable.hash]
  cases t.buckets_[hash key t.buckets_.length]? with
  | none => rfl
  | some bucket =>
    simp only [findPair_eq, Option.map_some']
    cases bucket.find? (fun pair => pair.1 == key) <;> rfl

/-- The bucket written back by `Put` answers the key just put with the new value. -/
theorem find_put_bucket_same (b : Bucket) (key : Int) (value : String) :
    ((if key ∈ b.map Prod.fst then (updateFirst b key value).1
      else b ++ [(key, value)]).find? (fun pair => pair.1 == key)).map Prod.snd =
      some value := by
  by_cases hk : key ∈ b.map Prod.fst
  · rw [if_pos hk, find_updateFirst_same b key value hk]; rfl
  · rw [if_neg hk, List.find?_append]
    have hnone : b.find? (fun pair => pair.1 == key) = none := by
      rw [List.find?_eq_none]
      intro p hp hpk
      simp only [beq_iff_eq] at hpk
      exact hk (List.mem_map.2 ⟨p, hp, hpk⟩)
    rw [hnone]
    simp

/-- The bucket written back by `Put` answers every other key as before. -/
theorem find_put_bucket_other (b : Bucket) (key other : Int) (value : String)
    (h : other ≠ key) :
    ((if key ∈ b.map Prod.fst then (updateFirst b key value).1
      else b ++ [(key, value)]).find? (fun pair => pair.1 == other)).map Prod.snd =
      (b.find? (fun pair => pair.1 == other)).map Prod.snd := by
  by_cases hk : key ∈ b.map Prod.fst
  · rw [if_pos hk]; exact find_updateFirst_other b key other value h
  · rw [if_neg hk, List.find?_append]
    have hne : ¬ key = other := fun e => h e.symm
    simp [List.find?_cons, hne]

/-- Erasing the pairs equal to one with another key does not change the scan. -/
theorem find_filter_other (pair : Int × String) (other : Int) (h : pair.1 ≠ other) :
    ∀ b : Bucket, (b.filter (fun p => p ≠ pair)).find? (fun p => p.1 == other) =
      b.find? (fun p => p.1 == other) := by
  intro b
  induction b with
  | nil => rfl
  | cons q rest ih =>
    by_cases hq : q = pair
    · have hqo : ¬ (q.1 == other) = true := by
        rw [hq]; simpa using h
      rw [List.filter_cons_of_neg (by simp [hq]), List.find?_cons]
      simp only [hqo]
      exact ih
    · rw [List.filter_cons_of_pos (by simpa using hq), List.find?_cons, List.find?_cons, ih]

/-- Taking pairs out of one bucket takes them out of the pairs stored, up to
order. -/
theorem flatten_set_perm_of (x : Bucket) :
    ∀ (l : List Bucket) (i : Nat) (b b1 : Bucket), l[i]? = some b → b.Perm (x ++ b1) →
      l.flatten.Perm (x ++ (l.set i b1).flatten) := by
  intro l
  induction l with
  | nil => intro i b b1 h; simp at h
  | cons c rest ih =>
    intro i b b1 h hp
    cases i with
    | zero =>
      simp only [List.getElem?_cons_zero, Option.some.injEq] at h
      subst h
      simp only [List.set_cons_zero, List.flatten_cons, ← List.append_assoc]
      exact List.Perm.append_right _ hp
    | succ i =>
      simp only [List.getElem?_cons_succ] at h
      simp only [List.set_cons_succ, List.flatten_cons]
      have h1 := List.Perm.append_left c (ih i b b1 h hp)
      refine h1.trans ?_
      rw [← List.append_assoc, ← List.append_assoc]
      exact List.Perm.append_right _ List.perm_append_comm

/-- In a chain without repeated pairs, erasing the pairs equal to a stored one
takes out exactly that pair. -/
theorem perm_cons_filter_ne (pair : Int × String) :
    ∀ b : Bucket, b.Nodup → pair ∈ b →
      b.Perm (pair :: b.filter (fun p => decide (p ≠ pair))) := by
  intro b
  induction b with
  | nil => intro _ h; simp at h
  | cons q rest ih =>
    intro hnd hmem
    rw [List.nodup_cons] at hnd
    by_cases hq : q = pair
    · subst hq
      rw [List.filter_cons_of_neg (by simp)]
      have hall : rest.filter (fun p => decide (p ≠ q)) = rest := by
        rw [List.filter_eq_self]
        intro a ha
        have : a ≠ q := fun e => hnd.1 (e ▸ ha)
        simpa using this
      rw [hall]
    · have hin : pair ∈ rest := by
        rcases List.mem_cons.1 hmem with h | h
        · exact absurd h.symm hq
        · exact h
      rw [List.filter_cons_of_pos (by simpa using hq)]
      exact (List.Perm.cons q (ih hnd.2 hin)).trans (List.Perm.swap pair q _)

/-! ## The growth test follows the double quotient -/

/-- On the table built by `HashTable(10, 0.1)` the exact quotient `1 / 10` is below
the stored load factor (the double nearest to 0.1), the double quotient equals
it, and `Put(1, "a")` grows the table to capacity 20. -/
theorem Put_grows_on_rounded_tenth :
    ∃ t0 t1 : HashTable, new 10 (3602879701896397 / 2 ^ 55) = .ok t0 ∧
      ((t0.size + 1 : Nat) : ℚ) / (t0.capacity : ℚ) < t0.load_factor ∧
      loadRatio (t0.size + 1) t0.capacity = t0.load_factor ∧
      Put utils.hash t0 1 "a" = some t1 ∧ t1.capacity = 20 := by
  have h110 : utils.hash 1 10 = 1 := by decide
  have h120 : utils.hash 1 20 = 1 := by decide
  refine ⟨{ buckets_ := List.replicate 10 [], num_keys_ := 0,
            load_factor_ := 3602879701896397 / 2 ^ 55 },
    { buckets_ := (List.replicate 20 []).set 1 [(1, "a")], num_keys_ := 1,
      load_factor_ := 3602879701896397 / 2 ^ 55 }, ?_, ?_, ?_, ?_, ?_⟩
  · norm_num [new]
    rfl
  · norm_num [size, capacity, load_factor]
  · norm_num [size, capacity, load_factor, loadRatio_1_10]
  · norm_num [Put, HashTable.hash, h110, h120, updateFirst, rehash, kGrowthCoefficient,
      List.replicate, loadRatio_1_10]
  · simp [capacity]

/-- On the table reached by `HashTable(10, 0.2)` and `Put(1, "a")` the exact
quotient `2 / 10` is below the stored load factor (the double nearest to 0.2),
the double quotient equals it, and `Put(11, "b")` grows the table to capacity
20, after which `Search(11)` reports absent. -/
theorem Put_grows_on_rounded_fifth :
    ∃ t0 t1 t2 : HashTable, new 10 (3602879701896397 / 2 ^ 54) = .ok t0 ∧
      Put utils.hash t0 1 "a" = some t1 ∧ t1.capacity = 10 ∧
      ((t1.size + 1 : Nat) : ℚ) / (t1.capacity : ℚ) < t1.load_factor ∧
      loadRatio (t1.size + 1) t1.capacity = t1.load_factor ∧
      Put utils.hash t1 11 "b" = some t2 ∧ t2.capacity = 20 ∧
      Search utils.hash t2 11 = some none := by
  have h110 : utils.hash 1 10 = 1 := by decide
  have h1110 : utils.hash 11 10 = 1 := by decide
  have h120 : utils.hash 1 20 = 1 := by decide
  have h1120 : utils.hash 11 20 = 11 := by decide
  refine ⟨{ buckets_ := List.replicate 10 [], num_keys_ := 0,
            load_factor_ := 3602879701896397 / 2 ^ 54 },
    { buckets_ := (List.replicate 10 []).set 1 [(1, "a")], num_keys_ := 1,
      load_factor_ := 3602879701896397 / 2 ^ 54 },
    { buckets_ := (List.replicate 20 []).set 1 [(1, "a"), (11, "b")], num_keys_ := 2,
      load_factor_ := 3602879701896397 / 2 ^ 54 }, ?_, ?_, ?_, ?_, ?_, ?_, ?_, ?_⟩
  · norm_num [new]
    rfl
  · norm_num [Put, HashTable.hash, h110, updateFirst, List.replicate, loadRatio_1_10]
  · simp [capacity]
  · norm_num [size, capacity, load_factor]
  · norm_num [size, capacity, load_factor, loadRatio_2_10]
  · norm_num [Put, HashTable.hash, h1110, h120, updateFirst, rehash, kGrowthCoefficient,
      List.replicate, loadRatio_2_10]
  · simp [capacity]
  · norm_num [Search, HashTable.hash, h1120, findPair, List.replicate]

/-! ## The claims -/

/-- C1: the code at the failing input. On the table reached by `HashTable(2, 1.0)`
and `Put(1, "a")`, the call `Put(3, "b")` triggers the resize to capacity 4, and
the `Search(3)` right after it reports absent instead of returning "b": the
chain `[(1, "a"), (3, "b")]` was copied to bucket `hash(1, 4) = 1`, while
`Search(3)` looks into bucket `hash(3, 4) = 3`. -/
theorem Put_then_Search_lost :
    ∃ t t1 : HashTable, Reachable utils.hash t ∧ Put utils.hash t 3 "b" = some t1 ∧
      t.capacity = 2 ∧ t1.capacity = 4 ∧
      t1.buckets_ = [[], [(1, "a"), (3, "b")], [], []] ∧
      Search utils.hash t1 3 = some none := by
  have h12 : utils.hash 1 2 = 1 := by decide
  have h32 : utils.hash 3 2 = 1 := by decide
  have h14 : utils.hash 1 4 = 1 := by decide
  have h34 : utils.hash 3 4 = 3 := by decide
  refine ⟨{ buckets_ := [[], [(1, "a")]], num_keys_ := 1, load_factor_ := 1 },
    { buckets_ := [[], [(1, "a"), (3, "b")], [], []], num_keys_ := 2, load_factor_ := 1 },
    ?_, ?_, rfl, rfl, rfl, ?_⟩
  · refine Reachable.put { buckets_ := [[], []], num_keys_ := 0, load_factor_ := 1 } _ 1 "a"
      (Reachable.init 2 1 _ rfl) ?_
    norm_num [Put, HashTable.hash, h12, updateFirst]
  · norm_num [Put, HashTable.hash, h32, h14, updateFirst, rehash, kGrowthCoefficient,
      List.replicate]
  · norm_num [Search, HashTable.hash, h34, findPair]

/-- C2: the code at the failing input. After the run `Put(1, "a")`, `Put(3, "b")`
on the table built by `HashTable(2, 1.0)`, the last value written for key 3 is
"b", yet `Search(3)` reports absent (while `Search(1)` still returns "a"). -/
theorem PutAll_last_write_lost :
    ∃ t0 t : HashTable, new 2 1 = .ok t0 ∧
      PutAll utils.hash t0 [(1, "a"), (3, "b")] = some t ∧
      Search utils.hash t 3 = some none ∧ Search utils.hash t 1 = some (some "a") := by
  have h12 : utils.hash 1 2 = 1 := by decide
  have h32 : utils.hash 3 2 = 1 := by decide
  have h14 : utils.hash 1 4 = 1 := by decide
  have h34 : utils.hash 3 4 = 3 := by decide
  refine ⟨{ buckets_ := [[], []], num_keys_ := 0, load_factor_ := 1 },
    { buckets_ := [[], [(1, "a"), (3, "b")], [], []], num_keys_ := 2, load_factor_ := 1 },
    rfl, ?_, ?_, ?_⟩
  · norm_num [PutAll, Put, HashTable.hash, h12, h32, h14, updateFirst, rehash,
      kGrowthCoefficient, List.replicate]
  · norm_num [Search, HashTable.hash, h34, findPair]
  · norm_num [Search, HashTable.hash, h14, findPair]

/-- C3: the code at the failing input. On the table reached by
`HashTable(4, 0.75)`, `Put(1, "a")`, `Put(5, "b")`, `Search(5)` returns "b". The
call `Put(2, "c")` triggers the growth to capacity 8, and afterwards `Search(5)`
reports absent: key 5 (different from the key 2 just put) is no longer
retrievable. -/
theorem Put_resize_loses_pair :
    ∃ t0 t t1 : HashTable, new 4 (3 / 4) = .ok t0 ∧
      PutAll utils.hash t0 [(1, "a"), (5, "b")] = some t ∧
      Search utils.hash t 5 = some (some "b") ∧
      loadRatio (t.size + 1) t.capacity ≥ t.load_factor ∧
      Put utils.hash t 2 "c" = some t1 ∧ t.capacity = 4 ∧ t1.capacity = 8 ∧
      Search utils.hash t1 5 = some none := by
  have h14 : utils.hash 1 4 = 1 := by decide
  have h54 : utils.hash 5 4 = 1 := by decide
  have h24 : utils.hash 2 4 = 2 := by decide
  have h18 : utils.hash 1 8 = 1 := by decide
  have h28 : utils.hash 2 8 = 2 := by decide
  have h58 : utils.hash 5 8 = 5 := by decide
  refine ⟨{ buckets_ := [[], [], [], []], num_keys_ := 0, load_factor_ := 3 / 4 },
    { buckets_ := [[], [(1, "a"), (5, "b")], [], []], num_keys_ := 2, load_factor_ := 3 / 4 },
    { buckets_ := [[], [(1, "a"), (5, "b")], [(2, "c")], [], [], [], [], []],
      num_keys_ := 3, load_factor_ := 3 / 4 },
    ?_, ?_, ?_, ?_, ?_, rfl, rfl, ?_⟩
  · norm_num [new, List.replicate]
  · norm_num [PutAll, Put, HashTable.hash, h14, h54, updateFirst]
  · norm_num [Search, HashTable.hash, h54, findPair]
  · norm_num [capacity, size, load_factor]
  · norm_num [Put, HashTable.hash, h24, h18, h28, updateFirst, rehash, kGrowthCoefficient,
      List.replicate]
  · norm_num [Search, HashTable.hash, h58, findPair]

/-- C4: for a table with capacity `c ≥ 1` and size `n`, `Put(k, v)` returns, and the
capacity afterwards is exactly `2 * c` (growth coefficient 2) when
`(n + 1) / c ≥ loadFactor`, the quotient being the `double` quotient the code
computes, and exactly `c` otherwise; so one `Put` grows the capacity by at most
one factor of 2. -/
theorem Put_capacity (hash : Int → Nat → Nat) (hr : HashInRange hash) (t : HashTable)
    (hc : 0 < t.capacity) (key : Int) (value : String) :
    ∃ t1, Put hash t key value = some t1 ∧
      t1.capacity =
        (if loadRatio (t.size + 1) t.capacity ≥ t.load_factor then
          2 * t.capacity else t.capacity) ∧
      kGrowthCoefficient = 2 ∧
      (t1.capacity = t.capacity ∨ t1.capacity = 2 * t.capacity) := by
  obtain ⟨bucket, hb⟩ := bucket_of_inRange hash hr t hc key
  rw [Put_eq hash t key value bucket hb]
  simp only [size, capacity, load_factor] at hc ⊢
  by_cases hg : loadRatio (t.num_keys_ + 1) t.buckets_.length ≥ t.load_factor_
  · obtain ⟨r, hrh⟩ := rehash_total hash hr
      (t.buckets_.set (hash key t.buckets_.length)
        (if key ∈ bucket.map Prod.fst then (updateFirst bucket key value).1
          else bucket ++ [(key, value)]))
      (List.replicate (t.buckets_.length * 2) []) (by simpa using hc)
    have hlen := rehash_length hash _ _ _ hrh
    simp only [List.length_replicate] at hlen
    refine ⟨{ buckets_ := r, num_keys_ := t.num_keys_ + 1, load_factor_ := t.load_factor_ },
      ?_, ?_, rfl, ?_⟩
    · rw [if_pos hg, hrh]; rfl
    · simp only [if_pos hg, hlen]; omega
    · right; simp only [hlen]; omega
  · refine ⟨{ buckets_ := t.buckets_.set (hash key t.buckets_.length)
                (if key ∈ bucket.map Prod.fst then (updateFirst bucket key value).1
                  else bucket ++ [(key, value)]),
              num_keys_ := t.num_keys_ + 1, load_factor_ := t.load_factor_ }, ?_, ?_, rfl, ?_⟩
    · rw [if_neg hg]
    · simp [if_neg hg]
    · left; simp

/-- C4 at a concrete input: `Put(1, "a")` on the table built by
`HashTable(10, 0.1)`, whose load factor is the double nearest to 0.1. The
double quotient `1.0 / 10` is that same double, so this `Put` takes the growth
branch. -/
theorem Put_capacity_witness :
    HashInRange utils.hash ∧
    0 < ({ buckets_ := List.replicate 10 [], num_keys_ := 0, load_factor_ := 3602879701896397 / 2 ^ 55 } :
      HashTable).capacity ∧
    ∃ t1, Put utils.hash
        { buckets_ := List.replicate 10 [], num_keys_ := 0, load_factor_ := 3602879701896397 / 2 ^ 55 }
        1 "a" = some t1 ∧
      t1.capacity =
        (if loadRatio
            (({ buckets_ := List.replicate 10 [], num_keys_ := 0, load_factor_ := 3602879701896397 / 2 ^ 55 } :
              HashTable).size + 1)
            ({ buckets_ := List.replicate 10 [], num_keys_ := 0, load_factor_ := 3602879701896397 / 2 ^ 55 } :
              HashTable).capacity ≥
            ({ buckets_ := List.replicate 10 [], num_keys_ := 0, load_factor_ := 3602879701896397 / 2 ^ 55 } :
              HashTable).load_factor then
          2 * ({ buckets_ := List.replicate 10 [], num_keys_ := 0, load_factor_ := 3602879701896397 / 2 ^ 55 } :
            HashTable).capacity
          else
            ({ buckets_ := List.replicate 10 [], num_keys_ := 0, load_factor_ := 3602879701896397 / 2 ^ 55 } :
              HashTable).capacity) ∧
      kGrowthCoefficient = 2 ∧
      (t1.capacity =
          ({ buckets_ := List.replicate 10 [], num_keys_ := 0, load_factor_ := 3602879701896397 / 2 ^ 55 } :
            HashTable).capacity ∨
        t1.capacity =
          2 * ({ buckets_ := List.replicate 10 [], num_keys_ := 0, load_factor_ := 3602879701896397 / 2 ^ 55 } :
            HashTable).capacity) :=
  ⟨utils.hash_inRange, by decide,
    Put_capacity utils.hash utils.hash_inRange
      { buckets_ := List.replicate 10 [], num_keys_ := 0, load_factor_ := 3602879701896397 / 2 ^ 55 }
      (by decide) 1 "a"⟩

/-- C5: on a reachable table, when `Search(k)` returns `v`, `Remove(k)` returns `v`
and afterwards `Search(k)` is absent and `ContainsKey(k)` is false. -/
theorem Remove_present (hash : Int → Nat → Nat) (t : HashTable)
    (hreach : Reachable hash t) (key : Int) (v : String)
    (h : Search hash t key = some (some v)) :
    ∃ t1, Remove hash t key = some (some v, t1) ∧ Search hash t1 key = some none ∧
      ContainsKey hash t1 key = some false := by
  have hd := reachable_distinct hash t hreach
  unfold Search at h
  cases hb : t.buckets_[t.hash hash key]? with
  | none => simp [hb] at h
  | some bucket =>
    simp only [hb] at h
    have hmem : bucket ∈ t.buckets_ := List.mem_iff_getElem?.2 ⟨_, hb⟩
    cases hf : findPair bucket key with
    | none => simp [hf] at h
    | some pair =>
      simp only [hf, Option.some.injEq] at h
      have hlt : t.hash hash key < t.buckets_.length := by
        by_contra hge
        rw [List.getElem?_eq_none (not_lt.mp hge)] at hb
        cases hb
      have hsearch : Search hash
          { buckets_ := t.buckets_.set (t.hash hash key) (bucket.filter (fun p => p ≠ pair)),
            num_keys_ := t.num_keys_, load_factor_ := t.load_factor_ } key = some none := by
        have hidx : (t.buckets_.set (t.hash hash key) (bucket.filter (fun p => p ≠ pair)))[
            hash key (t.buckets_.set (t.hash hash key)
              (bucket.filter (fun p => p ≠ pair))).length]? =
            some (bucket.filter (fun p => p ≠ pair)) := by
          rw [List.length_set]
          change (t.buckets_.set (t.hash hash key) _)[t.hash hash key]? = _
          rw [List.getElem?_set, if_pos rfl, if_pos hlt]
        have hnone : findPair (bucket.filter (fun p => p ≠ pair)) key = none := by
          rw [findPair_eq, List.find?_eq_none]
          intro q hq hqk
          rw [List.mem_filter] at hq
          rw [findPair_eq] at hf
          have hp1 := List.find?_some hf
          have hpm := List.mem_of_find?_eq_some hf
          simp only [beq_iff_eq] at hp1 hqk
          have := List.inj_on_of_nodup_map (hd bucket hmem) hq.1 hpm (hqk.trans hp1.symm)
          simp [this] at hq
        simp only [HashTable.hash] at hidx
        simp only [Search, HashTable.hash, hidx, hnone]
      refine ⟨_, ?_, hsearch, ?_⟩
      · simp only [Remove, hb, hf, h]
      · simp only [ContainsKey, hsearch]; rfl

/-- C5 at a concrete input: removing key 1 from the table reached by
`HashTable(2, 1.0)` and `Put(1, "a")`. -/
theorem Remove_present_witness :
    Reachable utils.hash { buckets_ := [[], [(1, "a")]], num_keys_ := 1, load_factor_ := 1 } ∧
    Search utils.hash { buckets_ := [[], [(1, "a")]], num_keys_ := 1, load_factor_ := 1 } 1
      = some (some "a") ∧
    ∃ t1, Remove utils.hash { buckets_ := [[], [(1, "a")]], num_keys_ := 1, load_factor_ := 1 } 1
        = some (some "a", t1) ∧
      Search utils.hash t1 1 = some none ∧ ContainsKey utils.hash t1 1 = some false := by
  have h12 : utils.hash 1 2 = 1 := by decide
  have hreach : Reachable utils.hash
      { buckets_ := [[], [(1, "a")]], num_keys_ := 1, load_factor_ := 1 } := by
    refine Reachable.put { buckets_ := [[], []], num_keys_ := 0, load_factor_ := 1 } _ 1 "a"
      (Reachable.init 2 1 _ rfl) ?_
    norm_num [Put, HashTable.hash, h12, updateFirst]
  have hsearch : Search utils.hash
      { buckets_ := [[], [(1, "a")]], num_keys_ := 1, load_factor_ := 1 } 1
        = some (some "a") := by
    norm_num [Search, HashTable.hash, h12, findPair]
  exact ⟨hreach, hsearch, Remove_present utils.hash _ hreach 1 "a" hsearch⟩

/-- C6: when `Search(k)` reports absent, `Remove(k)` returns the absent result and
the table afterwards is the table before (all buckets, size, capacity and load
factor). -/
theorem Remove_absent (hash : Int → Nat → Nat) (t : HashTable) (key : Int)
    (h : Search hash t key = some none) : Remove hash t key = some (none, t) := by
  unfold Search at h
  unfold Remove
  cases hb : t.buckets_[t.hash hash key]? with
  | none => simp [hb] at h
  | some bucket =>
    simp only [hb] at h ⊢
    cases hf : findPair bucket key with
    | none => rfl
    | some pair => simp [hf] at h

/-- C6 at a concrete input: removing the absent key 3 from a table that stores
key 1. -/
theorem Remove_absent_witness :
    Search utils.hash { buckets_ := [[], [(1, "a")]], num_keys_ := 1, load_factor_ := 1 } 3
      = some none ∧
    Remove utils.hash { buckets_ := [[], [(1, "a")]], num_keys_ := 1, load_factor_ := 1 } 3
      = some (none, { buckets_ := [[], [(1, "a")]], num_keys_ := 1, load_factor_ := 1 }) := by
  have h32 : utils.hash 3 2 = 1 := by decide
  have hsearch : Search utils.hash
      { buckets_ := [[], [(1, "a")]], num_keys_ := 1, load_factor_ := 1 } 3 = some none := by
    norm_num [Search, HashTable.hash, h32, findPair]
  exact ⟨hsearch, Remove_absent utils.hash _ 3 hsearch⟩

/-- C7: construction fails exactly when `capacity <= 0`, `loadFactor <= 0` or
`loadFactor > 1`, and succeeds for every other pair of arguments. -/
theorem new_fails_iff (capacity : Int) (load_factor : ℚ) :
    ((∃ msg, new capacity load_factor = .error msg) ↔
      (capacity ≤ 0 ∨ load_factor ≤ 0 ∨ load_factor > 1)) ∧
    ((∃ t, new capacity load_factor = .ok t) ↔
      ¬ (capacity ≤ 0 ∨ load_factor ≤ 0 ∨ load_factor > 1)) := by
  unfold new
  by_cases hc : capacity ≤ 0
  · simp [hc]
  · by_cases hl : load_factor ≤ 0 ∨ load_factor > 1
    · simp [hc, hl]
    · simp only [if_neg hc, if_neg hl]
      have : ¬ (capacity ≤ 0 ∨ load_factor ≤ 0 ∨ load_factor > 1) := by tauto
      simp [this]

/-- C8: for valid arguments the constructor succeeds and the table has exactly
`capacity` buckets, all empty: `capacity()` is the argument, `load_factor()` is the
argument, `size()` is 0, `empty()` holds, `keys()` and `values()` are empty, and
`Search(k)` is absent for every key (for every hash function that stays in
range). -/
theorem new_ok (capacity : Int) (load_factor : ℚ) (hc : 0 < capacity)
    (h0 : 0 < load_factor) (h1 : load_factor ≤ 1) :
    ∃ t, new capacity load_factor = .ok t ∧
      (t.buckets_.length : Int) = capacity ∧ (∀ b ∈ t.buckets_, b = []) ∧
      (t.capacity : Int) = capacity ∧ t.load_factor = load_factor ∧
      t.size = 0 ∧ t.empty = true ∧ t.keys = ∅ ∧ t.values = [] ∧
      ∀ hash, HashInRange hash → ∀ key, Search hash t key = some none := by
  have hc1 : ¬ capacity ≤ 0 := not_le.mpr hc
  have hl : ¬ (load_factor ≤ 0 ∨ load_factor > 1) := by
    rintro (h | h)
    · exact absurd h0 (not_lt.mpr h)
    · exact absurd h1 (not_le.mpr h)
  refine ⟨{ buckets_ := List.replicate capacity.toNat [], num_keys_ := 0,
            load_factor_ := load_factor }, ?_, ?_, ?_, ?_, rfl, rfl, rfl, ?_, ?_, ?_⟩
  · simp only [new, if_neg hc1, if_neg hl]
  · simp only [List.length_replicate]; exact Int.toNat_of_nonneg (le_of_lt hc)
  · intro b hb; exact List.eq_of_mem_replicate hb
  · simp only [HashTable.capacity, List.length_replicate]; exact Int.toNat_of_nonneg (le_of_lt hc)
  · rw [keys_eq]; simp [flatten_replicate_nil]
  · rw [values_eq]; simp [flatten_replicate_nil]
  · intro hash hr key
    have hpos : 0 < capacity.toNat := by omega
    have hlt := hr key capacity.toNat hpos
    simp [Search, HashTable.hash, List.getElem?_replicate, hlt, findPair]

/-- C8 at a concrete input: `HashTable(4, 0.75)`. -/
theorem new_ok_witness :
    (0 : Int) < 4 ∧ (0 : ℚ) < 3 / 4 ∧ (3 / 4 : ℚ) ≤ 1 ∧
    ∃ t, new 4 (3 / 4) = .ok t ∧
      (t.buckets_.length : Int) = 4 ∧ (∀ b ∈ t.buckets_, b = []) ∧
      (t.capacity : Int) = 4 ∧ t.load_factor = 3 / 4 ∧
      t.size = 0 ∧ t.empty = true ∧ t.keys = ∅ ∧ t.values = [] ∧
      ∀ hash, HashInRange hash → ∀ key, Search hash t key = some none :=
  ⟨by norm_num, by norm_num, by norm_num,
    new_ok 4 (3 / 4) (by norm_num) (by norm_num) (by norm_num)⟩

/-- C9: the code at the failing input. On the table built by `HashTable(4, 0.75)`,
`Put(1, "a")` followed by `Put(1, "z")` leaves a single pair and `Search(1)`
returns "z", but `size()` is 2, not 1: the update of the present key 1 changed
`size()` from 1 to 2. -/
theorem Put_update_increments_size :
    ∃ t0 t1 t2 : HashTable, new 4 (3 / 4) = .ok t0 ∧
      Put utils.hash t0 1 "a" = some t1 ∧ Search utils.hash t1 1 = some (some "a") ∧
      t1.size = 1 ∧
      Put utils.hash t1 1 "z" = some t2 ∧ t2.size = 2 ∧
      t2.buckets_ = [[], [(1, "z")], [], []] ∧
      Search utils.hash t2 1 = some (some "z") := by
  have h14 : utils.hash 1 4 = 1 := by decide
  refine ⟨{ buckets_ := [[], [], [], []], num_keys_ := 0, load_factor_ := 3 / 4 },
    { buckets_ := [[], [(1, "a")], [], []], num_keys_ := 1, load_factor_ := 3 / 4 },
    { buckets_ := [[], [(1, "z")], [], []], num_keys_ := 2, load_factor_ := 3 / 4 },
    ?_, ?_, ?_, rfl, ?_, rfl, rfl, ?_⟩
  · norm_num [new, List.replicate]
  · norm_num [Put, HashTable.hash, h14, updateFirst]
  · norm_num [Search, HashTable.hash, h14, findPair]
  · norm_num [Put, HashTable.hash, h14, updateFirst]
  · norm_num [Search, HashTable.hash, h14, findPair]

/-- C10: for a modular hash, after the `Put` of `N` pairwise distinct keys into a
freshly constructed table the run has returned, `keys()` has exactly `N`
elements and `values()` has exactly `N` elements; the stored keys and values are
the inserted ones, none lost and none duplicated. -/
theorem keys_values_count (hash : Int → Nat → Nat) (hm : HashModular hash)
    (capacity : Int) (load_factor : ℚ) (t0 : HashTable)
    (hnew : new capacity load_factor = .ok t0) (ops : List (Int × String))
    (hd : (ops.map Prod.fst).Nodup) :
    ∃ t, PutAll hash t0 ops = some t ∧ t.keys.card = ops.length ∧
      t.values.length = ops.length ∧ t.keys = (ops.map Prod.fst).toFinset ∧
      t.values.Perm (ops.map Prod.snd) := by
  have ht0 : t0.buckets_ = List.replicate capacity.toNat [] ∧ 0 < capacity := by
    unfold new at hnew
    split at hnew
    · cases hnew
    · split at hnew
      · cases hnew
      · cases hnew
        exact ⟨rfl, by omega⟩
  have hflat : t0.buckets_.flatten = [] := by rw [ht0.1, flatten_replicate_nil]
  obtain ⟨t, h1, h2⟩ := PutAll_perm hash hm ops t0
    (by rw [ht0.1, List.length_replicate]; omega)
    (by rw [ht0.1]; exact frontHome_replicate hash _)
    (by intro k _; rw [hflat]; simp)
    hd
  rw [hflat, List.nil_append] at h2
  have hkeys : t.keys = (ops.map Prod.fst).toFinset := by
    rw [keys_eq]
    exact List.toFinset_eq_of_perm _ _ (List.Perm.map Prod.fst h2)
  refine ⟨t, h1, ?_, ?_, hkeys, ?_⟩
  · rw [hkeys, List.toFinset_card_of_nodup hd, List.length_map]
  · rw [values_eq, List.length_map, h2.length_eq]
  · rw [values_eq]; exact List.Perm.map Prod.snd h2

/-- C10 at a concrete input: the two distinct keys 1 and 3 put into the table built
by `HashTable(2, 1.0)`, a run that resizes. -/
theorem keys_values_count_witness :
    HashModular utils.hash ∧
    new 2 1 = .ok { buckets_ := [[], []], num_keys_ := 0, load_factor_ := 1 } ∧
    (([(1, "a"), (3, "b")] : List (Int × String)).map Prod.fst).Nodup ∧
    ∃ t, PutAll utils.hash { buckets_ := [[], []], num_keys_ := 0, load_factor_ := 1 }
        [(1, "a"), (3, "b")] = some t ∧
      t.keys.card = ([(1, "a"), (3, "b")] : List (Int × String)).length ∧
      t.values.length = ([(1, "a"), (3, "b")] : List (Int × String)).length ∧
      t.keys = (([(1, "a"), (3, "b")] : List (Int × String)).map Prod.fst).toFinset ∧
      t.values.Perm (([(1, "a"), (3, "b")] : List (Int × String)).map Prod.snd) :=
  ⟨utils.hash_modular, rfl, by decide,
    keys_values_count utils.hash utils.hash_modular 2 1 _ rfl [(1, "a"), (3, "b")]
      (by decide)⟩

/-- C11: after the `Put` of `N` pairwise distinct keys into a freshly constructed
table (for a hash that stays in range) the run has returned and `size()` is
`N`. -/
theorem size_after_distinct_puts (hash : Int → Nat → Nat) (hr : HashInRange hash)
    (capacity : Int) (load_factor : ℚ) (t0 : HashTable)
    (hnew : new capacity load_factor = .ok t0) (ops : List (Int × String))
    (_hd : (ops.map Prod.fst).Nodup) :
    ∃ t, PutAll hash t0 ops = some t ∧ t.size = ops.length := by
  obtain ⟨hc, hb, hn, _⟩ := new_shape capacity load_factor t0 hnew
  obtain ⟨t, h1, h2⟩ := PutAll_size hash hr ops t0
    (by rw [hb, List.length_replicate]; omega)
  exact ⟨t, h1, by rw [size, h2, hn, Nat.zero_add]⟩

/-- C11 at a concrete input: the three distinct keys 1, 5, 2 put into the table
built by `HashTable(4, 0.75)`. -/
theorem size_after_distinct_puts_witness :
    HashInRange utils.hash ∧
    new 4 (3 / 4) =
      .ok { buckets_ := [[], [], [], []], num_keys_ := 0, load_factor_ := 3 / 4 } ∧
    (([(1, "a"), (5, "b"), (2, "c")] : List (Int × String)).map Prod.fst).Nodup ∧
    ∃ t, PutAll utils.hash
        { buckets_ := [[], [], [], []], num_keys_ := 0, load_factor_ := 3 / 4 }
        [(1, "a"), (5, "b"), (2, "c")] = some t ∧
      t.size = ([(1, "a"), (5, "b"), (2, "c")] : List (Int × String)).length :=
  ⟨utils.hash_inRange, by norm_num [new, List.replicate], by decide,
    size_after_distinct_puts utils.hash utils.hash_inRange 4 (3 / 4) _
      (by norm_num [new, List.replicate]) [(1, "a"), (5, "b"), (2, "c")] (by decide)⟩

/-- C12: the concrete scenario. On the table built by `HashTable(4, 0.75)` the
capacity is still 4 after `Put(1, "a")` and after `Put(2, "b")`, and is 8 after
`Put(3, "c")`; after a further `Put(4, "d")` the four searches return "a", "b",
"c", "d" and `size()` is 4. -/
theorem scenario_four_puts :
    ∃ t0 t1 t2 t3 t4 : HashTable, new 4 (3 / 4) = .ok t0 ∧
      Put utils.hash t0 1 "a" = some t1 ∧ t1.capacity = 4 ∧
      Put utils.hash t1 2 "b" = some t2 ∧ t2.capacity = 4 ∧
      Put utils.hash t2 3 "c" = some t3 ∧ t3.capacity = 8 ∧
      Put utils.hash t3 4 "d" = some t4 ∧
      Search utils.hash t4 1 = some (some "a") ∧ Search utils.hash t4 2 = some (some "b") ∧
      Search utils.hash t4 3 = some (some "c") ∧ Search utils.hash t4 4 = some (some "d") ∧
      t4.size = 4 := by
  have h14 : utils.hash 1 4 = 1 := by decide
  have h24 : utils.hash 2 4 = 2 := by decide
  have h34 : utils.hash 3 4 = 3 := by decide
  have h18 : utils.hash 1 8 = 1 := by decide
  have h28 : utils.hash 2 8 = 2 := by decide
  have h38 : utils.hash 3 8 = 3 := by decide
  have h48 : utils.hash 4 8 = 4 := by decide
  refine ⟨{ buckets_ := [[], [], [], []], num_keys_ := 0, load_factor_ := 3 / 4 },
    { buckets_ := [[], [(1, "a")], [], []], num_keys_ := 1, load_factor_ := 3 / 4 },
    { buckets_ := [[], [(1, "a")], [(2, "b")], []], num_keys_ := 2, load_factor_ := 3 / 4 },
    { buckets_ := [[], [(1, "a")], [(2, "b")], [(3, "c")], [], [], [], []], num_keys_ := 3,
      load_factor_ := 3 / 4 },
    { buckets_ := [[], [(1, "a")], [(2, "b")], [(3, "c")], [(4, "d")], [], [], []],
      num_keys_ := 4, load_factor_ := 3 / 4 },
    ?_, ?_, rfl, ?_, rfl, ?_, rfl, ?_, ?_, ?_, ?_, ?_, rfl⟩
  · norm_num [new, List.replicate]
  · norm_num [Put, HashTable.hash, h14, updateFirst]
  · norm_num [Put, HashTable.hash, h24, updateFirst]
  · norm_num [Put, HashTable.hash, h34, h18, h28, h38, updateFirst, rehash,
      kGrowthCoefficient, List.replicate]
  · norm_num [Put, HashTable.hash, h48, updateFirst]
  · norm_num [Search, HashTable.hash, h18, findPair]
  · norm_num [Search, HashTable.hash, h28, findPair]
  · norm_num [Search, HashTable.hash, h38, findPair]
  · norm_num [Search, HashTable.hash, h48, findPair]

/-- C13: `ContainsKey(k)` is true exactly when `Search(k)` returns a value, false
exactly when `Search(k)` reports absent, and it indexes out of range exactly
when `Search(k)` does. -/
theorem ContainsKey_iff_Search (hash : Int → Nat → Nat) (t : HashTable) (key : Int) :
    (ContainsKey hash t key = some true ↔ ∃ v, Search hash t key = some (some v)) ∧
    (ContainsKey hash t key = some false ↔ Search hash t key = some none) ∧
    (ContainsKey hash t key = none ↔ Search hash t key = none) := by
  unfold ContainsKey
  cases h : Search hash t key with
  | none => simp
  | some r =>
    cases r with
    | none => simp
    | some v => simp

/-- C14: the code at the failing input. The table reached by `HashTable(2, 1.0)`,
`Put(1, "a")`, `Put(3, "b")` has capacity 4 and stores key 3 in bucket 1, while
`hash(3, 4) = 3`; a further `Put(3, "c")` then stores key 3 in bucket 3 as well,
so the key occurs in two buckets. -/
theorem resize_leaves_key_off_home :
    ∃ t t1 : HashTable, Reachable utils.hash t ∧
      t.buckets_ = [[], [(1, "a"), (3, "b")], [], []] ∧ utils.hash 3 t.capacity = 3 ∧
      ¬ KeysHome utils.hash t ∧
      Put utils.hash t 3 "c" = some t1 ∧ Reachable utils.hash t1 ∧
      t1.buckets_ = [[], [(1, "a"), (3, "b")], [], [(3, "c")]] := by
  have h12 : utils.hash 1 2 = 1 := by decide
  have h32 : utils.hash 3 2 = 1 := by decide
  have h14 : utils.hash 1 4 = 1 := by decide
  have h34 : utils.hash 3 4 = 3 := by decide
  have hput1 : Put utils.hash { buckets_ := [[], []], num_keys_ := 0, load_factor_ := 1 } 1 "a"
      = some { buckets_ := [[], [(1, "a")]], num_keys_ := 1, load_factor_ := 1 } := by
    norm_num [Put, HashTable.hash, h12, updateFirst]
  have hput2 : Put utils.hash { buckets_ := [[], [(1, "a")]], num_keys_ := 1, load_factor_ := 1 }
      3 "b" = some { buckets_ := [[], [(1, "a"), (3, "b")], [], []], num_keys_ := 2,
                     load_factor_ := 1 } := by
    norm_num [Put, HashTable.hash, h32, h14, updateFirst, rehash, kGrowthCoefficient,
      List.replicate]
  have hput3 : Put utils.hash
      { buckets_ := [[], [(1, "a"), (3, "b")], [], []], num_keys_ := 2, load_factor_ := 1 }
      3 "c" = some { buckets_ := [[], [(1, "a"), (3, "b")], [], [(3, "c")]], num_keys_ := 3,
                     load_factor_ := 1 } := by
    norm_num [Put, HashTable.hash, h34, updateFirst]
  have hreach : Reachable utils.hash
      { buckets_ := [[], [(1, "a"), (3, "b")], [], []], num_keys_ := 2, load_factor_ := 1 } :=
    Reachable.put _ _ 3 "b" (Reachable.put _ _ 1 "a" (Reachable.init 2 1 _ rfl) hput1) hput2
  refine ⟨_, _, hreach, rfl, h34, ?_, hput3, Reachable.put _ _ 3 "c" hreach hput3, rfl⟩
  intro hhome
  have h := hhome 1 [(1, "a"), (3, "b")] (3, "b") rfl (by simp)
  simp only [capacity, List.length_cons, List.length_nil] at h
  rw [h34] at h
  exact absurd h (by decide)

/-- C15: in every table reachable from a successful construction by `Put` and
`Remove` calls, the keys of the pairs of any single bucket are pairwise
distinct. -/
theorem bucket_keys_pairwise_distinct (hash : Int → Nat → Nat) (t : HashTable)
    (hreach : Reachable hash t) (i : Nat) (bucket : Bucket)
    (hb : t.buckets_[i]? = some bucket) :
    bucket.Pairwise (fun pair other => pair.1 ≠ other.1) := by
  have h := reachable_distinct hash t hreach bucket (List.mem_iff_getElem?.2 ⟨i, hb⟩)
  exact List.pairwise_map.1 h

/-- C15 at a concrete input: bucket 1 of the table reached by `HashTable(2, 1.0)`,
`Put(1, "a")`, `Put(3, "b")`, a run that resizes. -/
theorem bucket_keys_pairwise_distinct_witness :
    Reachable utils.hash
      { buckets_ := [[], [(1, "a"), (3, "b")], [], []], num_keys_ := 2, load_factor_ := 1 } ∧
    ({ buckets_ := [[], [(1, "a"), (3, "b")], [], []], num_keys_ := 2, load_factor_ := 1 } :
      HashTable).buckets_[1]? = some [(1, "a"), (3, "b")] ∧
    ([(1, "a"), (3, "b")] : Bucket).Pairwise (fun pair other => pair.1 ≠ other.1) := by
  have h12 : utils.hash 1 2 = 1 := by decide
  have h32 : utils.hash 3 2 = 1 := by decide
  have h14 : utils.hash 1 4 = 1 := by decide
  have hput1 : Put utils.hash { buckets_ := [[], []], num_keys_ := 0, load_factor_ := 1 } 1 "a"
      = some { buckets_ := [[], [(1, "a")]], num_keys_ := 1, load_factor_ := 1 } := by
    norm_num [Put, HashTable.hash, h12, updateFirst]
  have hput2 : Put utils.hash { buckets_ := [[], [(1, "a")]], num_keys_ := 1, load_factor_ := 1 }
      3 "b" = some { buckets_ := [[], [(1, "a"), (3, "b")], [], []], num_keys_ := 2,
                     load_factor_ := 1 } := by
    norm_num [Put, HashTable.hash, h32, h14, updateFirst, rehash, kGrowthCoefficient,
      List.replicate]
  have hreach : Reachable utils.hash
      { buckets_ := [[], [(1, "a"), (3, "b")], [], []], num_keys_ := 2, load_factor_ := 1 } :=
    Reachable.put _ _ 3 "b" (Reachable.put _ _ 1 "a" (Reachable.init 2 1 _ rfl) hput1) hput2
  exact ⟨hreach, rfl, bucket_keys_pairwise_distinct utils.hash _ hreach 1 _ rfl⟩

/-- C16: a run of `Put` and `Remove` calls on a freshly constructed table returns
(for a hash that stays in range) and `size()` afterwards is the number of `Put`
calls of the run; every returning `Put`, insert or update, adds exactly 1 to
`size()`, and every returning `Remove`, successful or not, leaves `size()` and
`capacity()` as they were. -/
theorem size_counts_Put_calls (hash : Int → Nat → Nat) (hr : HashInRange hash)
    (capacity : Int) (load_factor : ℚ) (t0 : HashTable)
    (hnew : new capacity load_factor = .ok t0) (ops : List Op) :
    (∃ t, run hash t0 ops = some t ∧ t.size = countPuts ops) ∧
    (∀ (t t1 : HashTable) (key : Int) (value : String),
      Put hash t key value = some t1 → t1.size = t.size + 1) ∧
    (∀ (t t1 : HashTable) (key : Int) (r : Option String),
      Remove hash t key = some (r, t1) → t1.size = t.size ∧ t1.capacity = t.capacity) := by
  obtain ⟨hc, hb, hn, _⟩ := new_shape capacity load_factor t0 hnew
  obtain ⟨t, h1, h2⟩ := run_size hash hr ops t0 (by rw [hb, List.length_replicate]; omega)
  refine ⟨⟨t, h1, by rw [size, h2, hn, Nat.zero_add]⟩, ?_, ?_⟩
  · intro t t1 key value h
    exact (Put_shape hash t t1 key value h).1
  · intro t t1 key r h
    obtain ⟨h3, _, h4⟩ := Remove_shape hash t t1 key r h
    exact ⟨h3, h4⟩

/-- C16 at a concrete input: the run `Put(1, "a")`, `Put(1, "z")`, `Remove(1)`,
`Remove(7)` on the table built by `HashTable(4, 0.75)` has two `Put` calls. -/
theorem size_counts_Put_calls_witness :
    HashInRange utils.hash ∧
    new 4 (3 / 4) =
      .ok { buckets_ := [[], [], [], []], num_keys_ := 0, load_factor_ := 3 / 4 } ∧
    (∃ t, run utils.hash
        { buckets_ := [[], [], [], []], num_keys_ := 0, load_factor_ := 3 / 4 }
        [Op.put 1 "a", Op.put 1 "z", Op.remove 1, Op.remove 7] = some t ∧
      t.size = countPuts [Op.put 1 "a", Op.put 1 "z", Op.remove 1, Op.remove 7]) ∧
    (∀ (t t1 : HashTable) (key : Int) (value : String),
      Put utils.hash t key value = some t1 → t1.size = t.size + 1) ∧
    (∀ (t t1 : HashTable) (key : Int) (r : Option String),
      Remove utils.hash t key = some (r, t1) →
        t1.size = t.size ∧ t1.capacity = t.capacity) :=
  ⟨utils.hash_inRange, by norm_num [new, List.replicate],
    size_counts_Put_calls utils.hash utils.hash_inRange 4 (3 / 4) _
      (by norm_num [new, List.replicate])
      [Op.put 1 "a", Op.put 1 "z", Op.remove 1, Op.remove 7]⟩

/-- C17: a table reached from a successful construction with `capacity` buckets by
a run of `Put` and `Remove` calls has `capacity() >= 1`, its capacity is the
initial capacity times a power of 2, and no further run makes the capacity
smaller. -/
theorem capacity_invariant (hash : Int → Nat → Nat) (capacity : Int) (load_factor : ℚ)
    (t0 t t1 : HashTable) (ops ops1 : List Op)
    (hnew : new capacity load_factor = .ok t0) (h : run hash t0 ops = some t)
    (h1 : run hash t ops1 = some t1) :
    1 ≤ t.capacity ∧ (∃ e : Nat, (t.capacity : Int) = capacity * 2 ^ e) ∧
      t.capacity ≤ t1.capacity := by
  obtain ⟨hc, hb, _, _⟩ := new_shape capacity load_factor t0 hnew
  obtain ⟨e, he⟩ := run_capacity hash ops t0 t h
  obtain ⟨e1, he1⟩ := run_capacity hash ops1 t t1 h1
  have h0 : t0.buckets_.length = capacity.toNat := by rw [hb, List.length_replicate]
  have hpos : 0 < capacity.toNat := by omega
  have hp : 0 < 2 ^ e := Nat.pow_pos (by decide)
  have hp1 : 0 < 2 ^ e1 := Nat.pow_pos (by decide)
  simp only [HashTable.capacity]
  refine ⟨?_, ⟨e, ?_⟩, ?_⟩
  · rw [he, h0]; exact Nat.mul_pos hpos hp
  · rw [he, h0]
    push_cast
    rw [Int.toNat_of_nonneg (le_of_lt hc)]
  · rw [he1]; exact Nat.le_mul_of_pos_right _ hp1

/-- C18: for a hash that stays in range, on every reachable table the bucket index
of every key is below the capacity, and `Search`, `ContainsKey`, `Put` (with the
new-bucket indices of a resize) and `Remove` all return: no access is out of
range. -/
theorem operations_in_bounds (hash : Int → Nat → Nat) (hr : HashInRange hash)
    (t : HashTable) (hreach : Reachable hash t) :
    (∀ key : Int, t.hash hash key < t.capacity) ∧
    (∀ key : Int, ∃ r, Search hash t key = some r) ∧
    (∀ key : Int, ∃ b, ContainsKey hash t key = some b) ∧
    (∀ (key : Int) (value : String), ∃ t1, Put hash t key value = some t1) ∧
    (∀ key : Int, ∃ r t1, Remove hash t key = some (r, t1)) := by
  have hc := reachable_capacity_pos hash t hreach
  refine ⟨fun key => hr key _ hc, fun key => Search_returns hash hr t hc key, ?_,
    fun key value => Put_returns hash hr t hc key value,
    fun key => Remove_returns hash hr t hc key⟩
  intro key
  obtain ⟨r, h⟩ := Search_returns hash hr t hc key
  exact ⟨r.isSome, by simp only [ContainsKey, h, Option.map_some']⟩

/-- C17 at a concrete input: the table built by `HashTable(2, 1.0)`, the run
`Put(1, "a")` and after it the run `Put(3, "b")`, which resizes. -/
theorem capacity_invariant_witness :
    new 2 1 = .ok { buckets_ := [[], []], num_keys_ := 0, load_factor_ := 1 } ∧
    run utils.hash { buckets_ := [[], []], num_keys_ := 0, load_factor_ := 1 }
      [Op.put 1 "a"] = some { buckets_ := [[], [(1, "a")]], num_keys_ := 1, load_factor_ := 1 } ∧
    run utils.hash { buckets_ := [[], [(1, "a")]], num_keys_ := 1, load_factor_ := 1 }
      [Op.put 3 "b"] =
        some { buckets_ := [[], [(1, "a"), (3, "b")], [], []], num_keys_ := 2,
               load_factor_ := 1 } ∧
    1 ≤ ({ buckets_ := [[], [(1, "a")]], num_keys_ := 1, load_factor_ := 1 } :
      HashTable).capacity ∧
    (∃ e : Nat, (({ buckets_ := [[], [(1, "a")]], num_keys_ := 1, load_factor_ := 1 } :
      HashTable).capacity : Int) = 2 * 2 ^ e) ∧
    ({ buckets_ := [[], [(1, "a")]], num_keys_ := 1, load_factor_ := 1 } :
      HashTable).capacity ≤
      ({ buckets_ := [[], [(1, "a"), (3, "b")], [], []], num_keys_ := 2, load_factor_ := 1 } :
        HashTable).capacity := by
  have h12 : utils.hash 1 2 = 1 := by decide
  have h32 : utils.hash 3 2 = 1 := by decide
  have h14 : utils.hash 1 4 = 1 := by decide
  have hrun1 : run utils.hash { buckets_ := [[], []], num_keys_ := 0, load_factor_ := 1 }
      [Op.put 1 "a"] =
        some { buckets_ := [[], [(1, "a")]], num_keys_ := 1, load_factor_ := 1 } := by
    norm_num [run, Put, HashTable.hash, h12, updateFirst]
  have hrun2 : run utils.hash { buckets_ := [[], [(1, "a")]], num_keys_ := 1, load_factor_ := 1 }
      [Op.put 3 "b"] =
        some { buckets_ := [[], [(1, "a"), (3, "b")], [], []], num_keys_ := 2,
               load_factor_ := 1 } := by
    norm_num [run, Put, HashTable.hash, h32, h14, updateFirst, rehash, kGrowthCoefficient,
      List.replicate]
  exact ⟨rfl, hrun1, hrun2,
    capacity_invariant utils.hash 2 1 _ _ _ [Op.put 1 "a"] [Op.put 3 "b"] rfl hrun1 hrun2⟩

/-- C18 at a concrete input: the table reached by `HashTable(2, 1.0)` and
`Put(1, "a")`. -/
theorem operations_in_bounds_witness :
    HashInRange utils.hash ∧
    Reachable utils.hash { buckets_ := [[], [(1, "a")]], num_keys_ := 1, load_factor_ := 1 } ∧
    (∀ key : Int,
      ({ buckets_ := [[], [(1, "a")]], num_keys_ := 1, load_factor_ := 1 } :
        HashTable).hash utils.hash key <
      ({ buckets_ := [[], [(1, "a")]], num_keys_ := 1, load_factor_ := 1 } :
        HashTable).capacity) ∧
    (∀ key : Int, ∃ r, Search utils.hash
      { buckets_ := [[], [(1, "a")]], num_keys_ := 1, load_factor_ := 1 } key = some r) ∧
    (∀ key : Int, ∃ b, ContainsKey utils.hash
      { buckets_ := [[], [(1, "a")]], num_keys_ := 1, load_factor_ := 1 } key = some b) ∧
    (∀ (key : Int) (value : String), ∃ t1, Put utils.hash
      { buckets_ := [[], [(1, "a")]], num_keys_ := 1, load_factor_ := 1 } key value
        = some t1) ∧
    (∀ key : Int, ∃ r t1, Remove utils.hash
      { buckets_ := [[], [(1, "a")]], num_keys_ := 1, load_factor_ := 1 } key
        = some (r, t1)) := by
  have h12 : utils.hash 1 2 = 1 := by decide
  have hreach : Reachable utils.hash
      { buckets_ := [[], [(1, "a")]], num_keys_ := 1, load_factor_ := 1 } := by
    refine Reachable.put { buckets_ := [[], []], num_keys_ := 0, load_factor_ := 1 } _ 1 "a"
      (Reachable.init 2 1 _ rfl) ?_
    norm_num [Put, HashTable.hash, h12, updateFirst]
  exact ⟨utils.hash_inRange, hreach,
    operations_in_bounds utils.hash utils.hash_inRange _ hreach⟩

/-- C19: for a table with capacity `c ≥ 1` and size `n` and a `Put(k, v)` that does
not trigger growth (`(n + 1) / c < loadFactor`, the quotient being the `double`
quotient the code computes), the `Put` returns, `Search(k)` afterwards returns
`v`, and `Search` of every other key returns exactly what it returned before. -/
theorem Put_without_growth (hash : Int → Nat → Nat) (hr : HashInRange hash)
    (t : HashTable) (hc : 0 < t.capacity) (key : Int) (value : String)
    (hng : loadRatio (t.size + 1) t.capacity < t.load_factor) :
    ∃ t1, Put hash t key value = some t1 ∧ t1.capacity = t.capacity ∧
      Search hash t1 key = some (some value) ∧
      ∀ other : Int, other ≠ key → Search hash t1 other = Search hash t other := by
  obtain ⟨bucket, hb⟩ := bucket_of_inRange hash hr t hc key
  have hlt : hash key t.buckets_.length < t.buckets_.length := hr key _ hc
  simp only [size, capacity, load_factor] at hng
  rw [Put_eq hash t key value bucket hb, if_neg (not_le.mpr hng)]
  refine ⟨_, rfl, ?_, ?_, ?_⟩
  · simp only [capacity, List.length_set]
  · rw [Search_eq]
    simp only [List.length_set, List.getElem?_set, if_pos hlt, if_true, Option.map_some',
      find_put_bucket_same]
  · intro other hne
    rw [Search_eq, Search_eq]
    simp only [List.length_set, List.getElem?_set]
    by_cases hidx : hash key t.buckets_.length = hash other t.buckets_.length
    · rw [if_pos hidx, if_pos hlt, ← hidx, hb]
      simp only [Option.map_some', find_put_bucket_other bucket key other value hne]
    · rw [if_neg hidx]

/-- C19 at a concrete input: `Put(5, "b")` on the table reached by
`HashTable(4, 0.75)` and `Put(1, "a")`; keys 1 and 5 share bucket 1. -/
theorem Put_without_growth_witness :
    HashInRange utils.hash ∧
    0 < ({ buckets_ := [[], [(1, "a")], [], []], num_keys_ := 1, load_factor_ := 3 / 4 } :
      HashTable).capacity ∧
    loadRatio
        (({ buckets_ := [[], [(1, "a")], [], []], num_keys_ := 1, load_factor_ := 3 / 4 } :
          HashTable).size + 1)
        ({ buckets_ := [[], [(1, "a")], [], []], num_keys_ := 1, load_factor_ := 3 / 4 } :
          HashTable).capacity <
      ({ buckets_ := [[], [(1, "a")], [], []], num_keys_ := 1, load_factor_ := 3 / 4 } :
        HashTable).load_factor ∧
    ∃ t1, Put utils.hash
        { buckets_ := [[], [(1, "a")], [], []], num_keys_ := 1, load_factor_ := 3 / 4 }
        5 "b" = some t1 ∧
      t1.capacity =
        ({ buckets_ := [[], [(1, "a")], [], []], num_keys_ := 1, load_factor_ := 3 / 4 } :
          HashTable).capacity ∧
      Search utils.hash t1 5 = some (some "b") ∧
      ∀ other : Int, other ≠ 5 → Search utils.hash t1 other =
        Search utils.hash
          { buckets_ := [[], [(1, "a")], [], []], num_keys_ := 1, load_factor_ := 3 / 4 }
          other := by
  have hng :
      loadRatio
        (({ buckets_ := [[], [(1, "a")], [], []], num_keys_ := 1, load_factor_ := 3 / 4 } :
          HashTable).size + 1)
        ({ buckets_ := [[], [(1, "a")], [], []], num_keys_ := 1, load_factor_ := 3 / 4 } :
          HashTable).capacity <
      ({ buckets_ := [[], [(1, "a")], [], []], num_keys_ := 1, load_factor_ := 3 / 4 } :
        HashTable).load_factor := by
    norm_num [size, capacity, load_factor]
  exact ⟨utils.hash_inRange, by decide, hng,
    Put_without_growth utils.hash utils.hash_inRange _ (by decide) 5 "b" hng⟩

/-- C20: on a reachable table a successful `Remove(k)` that returns `v` removes
exactly the pair `(k, v)`: the stored pairs lose that one pair, `values()`
loses one element (an occurrence of `v`), every bucket other than bucket
`hash(k, capacity)` is unchanged, and `Search` of every other key returns
exactly what it returned before. -/
theorem Remove_removes_one_pair (hash : Int → Nat → Nat) (t : HashTable)
    (hreach : Reachable hash t) (key : Int) (v : String) (t1 : HashTable)
    (h : Remove hash t key = some (some v, t1)) :
    t.buckets_.flatten.Perm ((key, v) :: t1.buckets_.flatten) ∧
    t.values.Perm (v :: t1.values) ∧ t1.values.length + 1 = t.values.length ∧
    (∀ i : Nat, i ≠ t.hash hash key → t1.buckets_[i]? = t.buckets_[i]?) ∧
    (∀ other : Int, other ≠ key → Search hash t1 other = Search hash t other) := by
  have hd := reachable_distinct hash t hreach
  unfold Remove at h
  cases hb : t.buckets_[t.hash hash key]? with
  | none => simp [hb] at h
  | some bucket =>
    simp only [hb] at h
    cases hf : findPair bucket key with
    | none => simp [hf] at h
    | some pair =>
      simp only [hf, Option.some.injEq, Prod.mk.injEq] at h
      obtain ⟨hv, ht1⟩ := h
      rw [findPair_eq] at hf
      have hkey : pair.1 = key := by simpa using List.find?_some hf
      have hmem : pair ∈ bucket := List.mem_of_find?_eq_some hf
      have hpair : pair = (key, v) := by rw [← hkey, ← hv]
      have hnd : bucket.Nodup :=
        List.Nodup.of_map Prod.fst (hd bucket (List.mem_iff_getElem?.2 ⟨_, hb⟩))
      have hperm : t.buckets_.flatten.Perm ((key, v) :: t1.buckets_.flatten) := by
        have := flatten_set_perm_of [pair] t.buckets_ (t.hash hash key) bucket
          (bucket.filter (fun p => decide (p ≠ pair))) hb
          (by rw [List.singleton_append]; exact perm_cons_filter_ne pair bucket hnd hmem)
        rw [List.singleton_append] at this
        rw [← ht1, ← hpair]
        exact this
      have hvals : t.values.Perm (v :: t1.values) := by
        rw [values_eq, values_eq]
        exact List.Perm.map Prod.snd hperm
      refine ⟨hperm, hvals, ?_, ?_, ?_⟩
      · rw [hvals.length_eq, List.length_cons]
      · intro i hi
        rw [← ht1]
        simp only [List.getElem?_set]
        rw [if_neg (fun e => hi e.symm)]
      · intro other hne
        rw [Search_eq, Search_eq, ← ht1]
        simp only [List.length_set, List.getElem?_set]
        have hlt : t.hash hash key < t.buckets_.length := by
          by_contra hge
          rw [List.getElem?_eq_none (not_lt.mp hge)] at hb
          cases hb
        by_cases hidx : t.hash hash key = hash other t.buckets_.length
        · rw [if_pos hidx, if_pos hlt, ← hidx, hb]
          simp only [Option.map_some']
          rw [find_filter_other pair other (by rw [hkey]; exact fun e => hne e.symm) bucket]
        · rw [if_neg hidx]

/-- C20 at a concrete input: `Remove(1)` on the table reached by
`HashTable(4, 0.75)`, `Put(1, "a")`, `Put(5, "b")`; keys 1 and 5 share bucket 1. -/
theorem Remove_removes_one_pair_witness :
    Reachable utils.hash
      { buckets_ := [[], [(1, "a"), (5, "b")], [], []], num_keys_ := 2, load_factor_ := 3 / 4 } ∧
    Remove utils.hash
      { buckets_ := [[], [(1, "a"), (5, "b")], [], []], num_keys_ := 2, load_factor_ := 3 / 4 }
      1 = some (some "a",
        { buckets_ := [[], [(5, "b")], [], []], num_keys_ := 2, load_factor_ := 3 / 4 }) ∧
    ({ buckets_ := [[], [(1, "a"), (5, "b")], [], []], num_keys_ := 2, load_factor_ := 3 / 4 } :
      HashTable).buckets_.flatten.Perm
      ((1, "a") ::
        ({ buckets_ := [[], [(5, "b")], [], []], num_keys_ := 2, load_factor_ := 3 / 4 } :
          HashTable).buckets_.flatten) ∧
    ({ buckets_ := [[], [(1, "a"), (5, "b")], [], []], num_keys_ := 2, load_factor_ := 3 / 4 } :
      HashTable).values.Perm
      ("a" ::
        ({ buckets_ := [[], [(5, "b")], [], []], num_keys_ := 2, load_factor_ := 3 / 4 } :
          HashTable).values) ∧
    ({ buckets_ := [[], [(5, "b")], [], []], num_keys_ := 2, load_factor_ := 3 / 4 } :
      HashTable).values.length + 1 =
      ({ buckets_ := [[], [(1, "a"), (5, "b")], [], []], num_keys_ := 2,
         load_factor_ := 3 / 4 } : HashTable).values.length ∧
    (∀ i : Nat,
      i ≠ ({ buckets_ := [[], [(1, "a"), (5, "b")], [], []], num_keys_ := 2,
             load_factor_ := 3 / 4 } : HashTable).hash utils.hash 1 →
      ({ buckets_ := [[], [(5, "b")], [], []], num_keys_ := 2, load_factor_ := 3 / 4 } :
        HashTable).buckets_[i]? =
      ({ buckets_ := [[], [(1, "a"), (5, "b")], [], []], num_keys_ := 2,
         load_factor_ := 3 / 4 } : HashTable).buckets_[i]?) ∧
    (∀ other : Int, other ≠ 1 →
      Search utils.hash
        { buckets_ := [[], [(5, "b")], [], []], num_keys_ := 2, load_factor_ := 3 / 4 } other =
      Search utils.hash
        { buckets_ := [[], [(1, "a"), (5, "b")], [], []], num_keys_ := 2,
          load_factor_ := 3 / 4 } other) := by
  have h14 : utils.hash 1 4 = 1 := by decide
  have h54 : utils.hash 5 4 = 1 := by decide
  have hput1 : Put utils.hash
      { buckets_ := [[], [], [], []], num_keys_ := 0, load_factor_ := 3 / 4 } 1 "a" =
      some { buckets_ := [[], [(1, "a")], [], []], num_keys_ := 1, load_factor_ := 3 / 4 } := by
    norm_num [Put, HashTable.hash, h14, updateFirst]
  have hput2 : Put utils.hash
      { buckets_ := [[], [(1, "a")], [], []], num_keys_ := 1, load_factor_ := 3 / 4 } 5 "b" =
      some { buckets_ := [[], [(1, "a"), (5, "b")], [], []], num_keys_ := 2,
             load_factor_ := 3 / 4 } := by
    norm_num [Put, HashTable.hash, h54, updateFirst]
  have hreach : Reachable utils.hash
      { buckets_ := [[], [(1, "a"), (5, "b")], [], []], num_keys_ := 2,
        load_factor_ := 3 / 4 } :=
    Reachable.put _ _ 5 "b"
      (Reachable.put _ _ 1 "a"
        (Reachable.init 4 (3 / 4) _ (by norm_num [new, List.replicate])) hput1) hput2
  have hrem : Remove utils.hash
      { buckets_ := [[], [(1, "a"), (5, "b")], [], []], num_keys_ := 2, load_factor_ := 3 / 4 }
      1 = some (some "a",
        { buckets_ := [[], [(5, "b")], [], []], num_keys_ := 2, load_factor_ := 3 / 4 }) := by
    simp [Remove, HashTable.hash, h14, findPair]
  exact ⟨hreach, hrem, Remove_removes_one_pair utils.hash _ hreach 1 "a" _ hrem⟩

end HashTable
end itis
